import Mathlib

/-
A verification development for the Hathor Ledger signing app
(src/hathor.c, src/sign_tx.c, src/main.c, src/hathor.h, src/util.h).

Modelling conventions:
 * Machine bytes are `Nat`; where a claim depends on values fitting in a
   byte (or a machine word) the theorem carries that bound as a hypothesis,
   and wrap-around of C unsigned arithmetic is written with explicit `% 2^w`.
 * Byte buffers are `List Nat` holding the valid bytes; a C read past the
   valid length (the device's fixed 300-byte array holds zero bytes beyond
   `buffer_len` in a freshly zeroed session) is `List.getD _ _ 0`.
 * The Ledger OS and cx_* cryptographic primitives are external
   collaborators: key derivation + hash160 of the derived public key is an
   oracle `Hk : Nat → List Nat` (key index ↦ 20-byte hash), and SHA-256 is
   an oracle `H : List Nat → List Nat` where theorems quantify over it.
-/

/-- Status words, from src/hathor.h. -/
def SW_DEVELOPER_ERR : Nat := 0x6B00

/-- Status word for invalid parameters, from src/hathor.h. -/
def SW_INVALID_PARAM : Nat := 0x6B01

/-- Status word for user rejection, from src/hathor.h. -/
def SW_USER_REJECTED : Nat := 0x6985

/-- Success status word, from src/hathor.h. -/
def SW_OK : Nat := 0x9000

/-- Big-endian read of two bytes (the SDK macro U2BE). -/
def U2BE (buf : List Nat) (off : Nat) : Nat :=
  256 * buf.getD off 0 + buf.getD (off + 1) 0

/-- Big-endian read of four bytes (the SDK macro U4BE). -/
def U4BE (buf : List Nat) (off : Nat) : Nat :=
  256 * (256 * (256 * buf.getD off 0 + buf.getD (off + 1) 0) + buf.getD (off + 2) 0)
    + buf.getD (off + 3) 0

/-- Big-endian read of eight bytes: src/util.h's
`U8BE(buf, off) = ((uint64_t)U4BE(buf, off) << 32) | (U4BE(buf, off+4) & 0xFFFFFFFF)`;
for the disjoint bit ranges the `|` of the shift and the masked low word is
their sum. -/
def U8BE (buf : List Nat) (off : Nat) : Nat :=
  U4BE buf off * 2 ^ 32 + U4BE buf (off + 4) % 2 ^ 32

/-- The plain big-endian value of a byte list (specification-side reading,
used to state claims about the U*BE macros). -/
def beNat (bs : List Nat) : Nat := bs.foldl (fun a b => 256 * a + b) 0

/-- A transaction output, src/hathor.h's `tx_output_t` (the fields the
streaming decoder fills in: `index`, `value`, `token_data`, `pubkey_hash`). -/
structure tx_output_t where
  index : Nat
  value : Nat
  token_data : Nat
  pubkey_hash : List Nat
deriving Repr, DecidableEq

/-- How a throw out of src/hathor.c's output parsing arose. In the C source
both sites `THROW(SW_INVALID_PARAM)`: `assert_length` when the buffer holds
fewer bytes than needed, and `validate_p2pkh_script` when the script shape is
wrong; the embedding keeps the two sites apart so the decoder's catch can be
modelled (see `decoder_state_of_output_parse_err`). -/
inductive output_parse_err where
  | insufficient
  | badScript
deriving Repr, DecidableEq

/-- src/hathor.c `validate_p2pkh_script`: the script at offset `off` must
start with `0x76 0xA9 20` and carry `0x88 0xAC` at offsets 23 and 24
(`memcmp(p2pkh, in, 3)` and `memcmp(p2pkh+3, in+23, 2)`). -/
def validate_p2pkh_script (inb : List Nat) (off : Nat) : Bool :=
  inb.getD off 0 == 0x76 && inb.getD (off + 1) 0 == 0xA9 && inb.getD (off + 2) 0 == 20
    && inb.getD (off + 23) 0 == 0x88 && inb.getD (off + 24) 0 == 0xAC

/-- The 20 bytes at offset `off` (`os_memcpy(output->pubkey_hash, buf+3, 20)`). -/
def read20 (inb : List Nat) (off : Nat) : List Nat :=
  (List.range 20).map (fun i => inb.getD (off + i) 0)

/-- src/hathor.c `parse_output_value`: if bit 7 of the first byte is set the
value is eight bytes, read big-endian into a uint64 and negated
(`tmp = (-1)*tmp`, i.e. `2^64 - tmp` modulo `2^64`), after
`assert_length(11, inlen)`; otherwise it is the four-byte big-endian read.
Returns the parsed value and how far the cursor advanced (8 or 4). -/
def parse_output_value (inb : List Nat) (inlen : Nat) :
    Except output_parse_err (Nat × Nat) :=
  if (inb.getD 0 0).testBit 7 then
    if 11 > inlen then .error .insufficient
    else .ok ((2 ^ 64 - U8BE inb 0 % 2 ^ 64) % 2 ^ 64, 8)
  else .ok (U4BE inb 0, 4)

/-- src/hathor.c `parse_output`: `assert_length(7, inlen)`, the value field,
one token_data byte, a two-byte script length, `assert_length(script_len,
inlen - 7)`, P2PKH validation, and the 20-byte recipient hash at script
offset 3. Returns the updated output and the number of bytes consumed
(`buf - in`). -/
def parse_output (inb : List Nat) (inlen : Nat) (output : tx_output_t) :
    Except output_parse_err (tx_output_t × Nat) :=
  if 7 > inlen then .error .insufficient else
  match parse_output_value inb inlen with
  | .error e => .error e
  | .ok (value, vlen) =>
    let token_data := inb.getD vlen 0
    let script_len := U2BE inb (vlen + 1)
    if script_len > inlen - 7 then .error .insufficient
    else if validate_p2pkh_script inb (vlen + 3) = false then .error .badScript
    else .ok ({ output with
                value := value
                token_data := token_data
                pubkey_hash := read20 inb (vlen + 3 + 3) }, vlen + 3 + script_len)

theorem U8BE_eq_beNat (inb : List Nat) (h : ∀ i < 8, inb.getD i 0 < 256) :
    U8BE inb 0 = beNat ((List.range 8).map (fun i => inb.getD i 0)) := by
  have h4 : U4BE inb 4 < 2 ^ 32 := by
    have h4' := h 4 (by norm_num)
    have h5' := h 5 (by norm_num)
    have h6' := h 6 (by norm_num)
    have h7' := h 7 (by norm_num)
    simp only [U4BE]
    norm_num at h4' h5' h6' h7' ⊢
    omega
  unfold U8BE
  rw [Nat.mod_eq_of_lt h4]
  simp only [U4BE, beNat, List.range_succ, List.range_zero, List.map_append, List.map_cons,
    List.map_nil, List.foldl_append, List.foldl_cons, List.foldl_nil, List.nil_append]
  norm_num
  ring

theorem beNat8_lt (inb : List Nat) (h : ∀ i < 8, inb.getD i 0 < 256) :
    beNat ((List.range 8).map (fun i => inb.getD i 0)) < 2 ^ 64 := by
  have h0 := h 0 (by norm_num)
  have h1 := h 1 (by norm_num)
  have h2 := h 2 (by norm_num)
  have h3 := h 3 (by norm_num)
  have h4 := h 4 (by norm_num)
  have h5 := h 5 (by norm_num)
  have h6 := h 6 (by norm_num)
  have h7 := h 7 (by norm_num)
  simp only [beNat, List.range_succ, List.range_zero, List.map_append, List.map_cons,
    List.map_nil, List.foldl_append, List.foldl_cons, List.foldl_nil, List.nil_append] at *
  norm_num at *
  omega

/-- C9: `parse_output_value` reads a 4-byte big-endian unsigned integer when
bit 7 of the first byte is clear, and when it is set (given the 11-byte
length guard) reads 8 bytes and yields the two's-complement negation modulo
`2^64` of their raw big-endian interpretation; the cursor advances by exactly
4 or 8 bytes respectively. -/
theorem parse_output_value_spec (inb : List Nat) (inlen : Nat)
    (hbytes : ∀ i < 8, inb.getD i 0 < 256) :
    (¬ (inb.getD 0 0).testBit 7 →
      parse_output_value inb inlen =
        .ok (beNat ((List.range 4).map (fun i => inb.getD i 0)), 4)) ∧
    ((inb.getD 0 0).testBit 7 → 11 ≤ inlen →
      parse_output_value inb inlen =
        .ok ((2 ^ 64 - beNat ((List.range 8).map (fun i => inb.getD i 0))) % 2 ^ 64, 8)) := by
  constructor
  · intro hflag
    unfold parse_output_value
    rw [if_neg hflag]
    congr 1
    simp only [U4BE, beNat, List.range_succ, List.range_zero, List.map_append, List.map_cons,
      List.map_nil, List.foldl_append, List.foldl_cons, List.foldl_nil, List.nil_append]
    norm_num
  · intro hflag hlen
    unfold parse_output_value
    rw [if_pos hflag, if_neg (by omega)]
    rw [U8BE_eq_beNat inb hbytes]
    rw [Nat.mod_eq_of_lt (beNat8_lt inb hbytes)]

/-- Witness for C9 at concrete inputs: the two forms at explicit byte lists. -/
theorem parse_output_value_spec_witness :
    parse_output_value [0, 0, 1, 2, 9, 9, 9, 9, 9, 9, 9] 11 = .ok (258, 4) ∧
    parse_output_value [0x80, 0, 0, 0, 0, 0, 0, 3, 9, 9, 9] 11 =
      .ok (2 ^ 64 - 0x8000000000000003, 8) := by
  have h1 := parse_output_value_spec [0, 0, 1, 2, 9, 9, 9, 9, 9, 9, 9] 11 (by decide)
  have h2 := parse_output_value_spec [0x80, 0, 0, 0, 0, 0, 0, 3, 9, 9, 9] 11 (by decide)
  constructor
  · rw [h1.1 (by decide)]
    rfl
  · rw [h2.2 (by decide) (by norm_num)]
    rfl

/-- Session states, src/ux.h (`sign_tx_state_e`). -/
inductive sign_tx_state_e where
  | UNINITIALIZED
  | RECEIVING_DATA
  | USER_APPROVED
deriving Repr, DecidableEq

/-- Element kinds, src/sign_tx.c (`tx_element_type_e`). -/
inductive tx_element_type_e where
  | ELEM_TOKEN_UID
  | ELEM_INPUT
  | ELEM_OUTPUT
deriving Repr, DecidableEq

/-- Modelled from the spec: the decoder's result states. The repository's
`tx_decoder_state_e` enumeration (with its numeric values) lives in src/ux.h,
which is not among the provided sources; the spec gives the decoder contract
`decode_next() -> {Error, Partial, Ready(Element), Finished}`. -/
inductive tx_decoder_state_e where
  | TX_STATE_ERR
  | TX_STATE_PARTIAL
  | TX_STATE_READY
  | TX_STATE_FINISHED
deriving Repr, DecidableEq

/-- An incremental SHA-256 context (the SDK's `cx_sha256_t`, a collaborator):
modelled as the transcript of bytes fed since `cx_sha256_init`, plus whether a
finalizing `cx_hash(..., CX_LAST, ...)` has already consumed the context. -/
structure cx_sha256_t where
  transcript : List Nat
  consumed : Bool
deriving Repr, DecidableEq

/-- The sign-tx session context, src/ux.h's `sign_tx_context_t` (the display
string fields `info`/`line1`/`line2` are rendered text and are modelled
separately, see `prepare_display_output_line1`). `buffer` holds the
`buffer_len` valid bytes of the 300-byte working array. -/
structure sign_tx_context_t where
  state : sign_tx_state_e
  buffer : List Nat
  sha256 : cx_sha256_t
  sighash_all : List Nat
  has_change_output : Bool
  change_output_index : Nat
  change_key_index : Nat
  remaining_tokens : Nat
  remaining_inputs : Nat
  outputs_len : Nat
  elem_type : tx_element_type_e
  current_output : Nat
  decoded_output : tx_output_t
  display_index : Nat
deriving Repr, DecidableEq

/-- src/sign_tx.c `verify_change_output`: derive the key pair for path
44'/280'/0'/0/index, compress the public key, hash160 it, and compare the 20
bytes with the output's `pubkey_hash`. The derivation-and-hash composite is
the collaborator oracle `Hk`. -/
def verify_change_output (Hk : Nat → List Nat) (output : tx_output_t) (index : Nat) : Bool :=
  Hk index == output.pubkey_hash

/-- Modelled from the spec: what `decode_next_element`'s `CATCH_OTHER`
turns a throw from inside `parse_output` into. In C both throw sites use the
one value `SW_INVALID_PARAM` and the catch compares it with the numeric
values of `tx_decoder_state_e`, which are defined in src/ux.h and missing
from the sources; the spec prescribes "fewer bytes than the current element
requires → return `Partial` without consuming anything" and "any other
script shape is `Error`". -/
def decoder_state_of_output_parse_err : output_parse_err → tx_decoder_state_e
  | .insufficient => .TX_STATE_PARTIAL
  | .badScript => .TX_STATE_ERR

/-- src/sign_tx.c `_decode_next_element`: one pass of the decoder body.
`.ok c'` is a normal return (the caller's loop continues); `.error (c', s)`
is `THROW(s)` with the context mutations made so far (the context is the
global `ctx`, so they persist across the throw). -/
def _decode_next_element (Hk : Nat → List Nat) (c : sign_tx_context_t) :
    Except (sign_tx_context_t × tx_decoder_state_e) sign_tx_context_t :=
  if c.remaining_tokens > 0 then
    if c.buffer.length < 32 then .error (c, .TX_STATE_PARTIAL)
    else .ok { c with
               remaining_tokens := c.remaining_tokens - 1
               buffer := c.buffer.drop 32
               elem_type := .ELEM_TOKEN_UID }
  else if c.remaining_inputs > 0 then
    if c.buffer.length < 35 then .error (c, .TX_STATE_PARTIAL)
    else if U2BE c.buffer 33 > 0 then .error (c, .TX_STATE_ERR)
    else .ok { c with
               remaining_inputs := c.remaining_inputs - 1
               buffer := c.buffer.drop 35
               elem_type := .ELEM_INPUT }
  else if c.current_output < c.outputs_len then
    match parse_output c.buffer c.buffer.length c.decoded_output with
    | .error e => .error (c, decoder_state_of_output_parse_err e)
    | .ok (o, consumed) =>
      let c' := { c with
                  decoded_output := { o with index := c.current_output }
                  elem_type := .ELEM_OUTPUT
                  buffer := c.buffer.drop consumed
                  current_output := c.current_output + 1 }
      if c'.has_change_output && c'.change_output_index == c'.decoded_output.index then
        if verify_change_output Hk c'.decoded_output c'.change_key_index then .ok c'
        else .error (c', .TX_STATE_ERR)
      else .error (c', .TX_STATE_READY)
  else
    if c.buffer.length > 0 then .error (c, .TX_STATE_ERR)
    else .error (c, .TX_STATE_FINISHED)

/-- Decreasing measure of the decoder loop: elements still to decode. -/
def decode_measure (c : sign_tx_context_t) : Nat :=
  c.remaining_tokens + c.remaining_inputs + (c.outputs_len - c.current_output)

/-- The decoder loop with explicit fuel (`none` = fuel ran out; with fuel
above `decode_measure` it never does, see `decode_fuel_isSome`). -/
def decode_fuel (Hk : Nat → List Nat) :
    Nat → sign_tx_context_t → Option (sign_tx_context_t × tx_decoder_state_e)
  | 0, _ => none
  | fuel + 1, c =>
    match _decode_next_element Hk c with
    | .ok c' => decode_fuel Hk fuel c'
    | .error r => some r

/-- src/sign_tx.c `decode_next_element`: run `_decode_next_element` until it
throws, and return the thrown decoder state (with the mutated context). -/
def decode_next_element (Hk : Nat → List Nat) (c : sign_tx_context_t) :
    sign_tx_context_t × tx_decoder_state_e :=
  (decode_fuel Hk (decode_measure c + 1) c).getD (c, .TX_STATE_ERR)

theorem _decode_ok_measure (Hk : Nat → List Nat) (c c' : sign_tx_context_t)
    (h : _decode_next_element Hk c = .ok c') : decode_measure c' < decode_measure c := by
  unfold _decode_next_element at h
  split at h
  · -- tokens > 0
    split at h
    · simp at h
    · simp only [Except.ok.injEq] at h
      subst h
      simp only [decode_measure]
      omega
  · split at h
    · -- inputs > 0
      split at h
      · simp at h
      · split at h
        · simp at h
        · simp only [Except.ok.injEq] at h
          subst h
          simp only [decode_measure]
          omega
    · split at h
      · -- an output
        split at h
        · simp at h
        · simp only [] at h
          split at h
          · split at h
            · simp only [Except.ok.injEq] at h
              subst h
              simp only [decode_measure]
              omega
            · simp at h
          · simp at h
      · split at h <;> simp at h

theorem decode_fuel_isSome (Hk : Nat → List Nat) :
    ∀ n c, decode_measure c < n → (decode_fuel Hk n c).isSome := by
  intro n
  induction n with
  | zero => intro c h; exact absurd h (by omega)
  | succ n ih =>
    intro c h
    rcases hd : _decode_next_element Hk c with r | c'
    · simp [decode_fuel, hd]
    · have hm := _decode_ok_measure Hk c c' hd
      simp only [decode_fuel, hd]
      exact ih c' (by omega)

theorem decode_fuel_congr (Hk : Nat → List Nat) :
    ∀ n m c, decode_measure c < n → decode_measure c < m →
      decode_fuel Hk n c = decode_fuel Hk m c := by
  intro n
  induction n with
  | zero => intro m c h _; exact absurd h (by omega)
  | succ n ih =>
    intro m c h hm
    match m with
    | 0 => exact absurd hm (by omega)
    | m' + 1 =>
      rcases hd : _decode_next_element Hk c with r | c'
      · simp [decode_fuel, hd]
      · have hlt := _decode_ok_measure Hk c c' hd
        simp only [decode_fuel, hd]
        exact ih m' c' (by omega) (by omega)

theorem decode_next_element_some (Hk : Nat → List Nat) (c : sign_tx_context_t) :
    decode_fuel Hk (decode_measure c + 1) c = some (decode_next_element Hk c) := by
  have h := decode_fuel_isSome Hk (decode_measure c + 1) c (by omega)
  unfold decode_next_element
  cases hx : decode_fuel Hk (decode_measure c + 1) c with
  | none => rw [hx] at h; simp at h
  | some r => simp

theorem decode_next_element_eq (Hk : Nat → List Nat) (c : sign_tx_context_t) :
    decode_next_element Hk c =
      match _decode_next_element Hk c with
      | .error r => r
      | .ok c' => decode_next_element Hk c' := by
  rcases hd : _decode_next_element Hk c with r | c'
  · unfold decode_next_element
    simp [decode_fuel, hd]
  · have h1 := decode_next_element_some Hk c
    have h2 := decode_next_element_some Hk c'
    have hm := _decode_ok_measure Hk c c' hd
    have h3 : decode_fuel Hk (decode_measure c + 1) c = decode_fuel Hk (decode_measure c) c' := by
      simp only [decode_fuel, hd]
    have h4 := decode_fuel_congr Hk (decode_measure c) (decode_measure c' + 1) c' (by omega) (by omega)
    rw [h3, h4, h2] at h1
    simp only [Option.some.injEq] at h1
    exact h1.symm

theorem _decode_ready_not_change (Hk : Nat → List Nat) (c c' : sign_tx_context_t)
    (h : _decode_next_element Hk c = .error (c', .TX_STATE_READY)) :
    c'.has_change_output = true → c'.decoded_output.index ≠ c'.change_output_index := by
  unfold _decode_next_element at h
  split at h
  · split at h <;> simp at h
  · split at h
    · split at h
      · simp at h
      · split at h <;> simp at h
    · split at h
      · split at h
        · simp only [Except.error.injEq, Prod.mk.injEq] at h
          obtain ⟨-, h2⟩ := h
          rename_i e heq
          cases e <;> simp [decoder_state_of_output_parse_err] at h2
        · simp only [] at h
          split at h
          · split at h <;> simp at h
          · rename_i hcond
            simp only [Except.error.injEq, Prod.mk.injEq] at h
            obtain ⟨hc, -⟩ := h
            subst hc
            intro hch heq
            simp only [] at hch heq
            exact hcond (by simp [hch, heq])
      · split at h <;> simp at h

theorem decode_fuel_ready_not_change (Hk : Nat → List Nat) :
    ∀ n c c', decode_fuel Hk n c = some (c', .TX_STATE_READY) →
      c'.has_change_output = true → c'.decoded_output.index ≠ c'.change_output_index := by
  intro n
  induction n with
  | zero => intro c c' h; simp [decode_fuel] at h
  | succ n ih =>
    intro c c' h
    rcases hd : _decode_next_element Hk c with r | c''
    · simp only [decode_fuel, hd, Option.some.injEq] at h
      subst h
      exact _decode_ready_not_change Hk c c' hd
    · simp only [decode_fuel, hd] at h
      exact ih c'' c' h

/-- C1: when the decoder reaches the output whose index equals the declared
change-output index it re-derives the key pair for the declared key index and
compares its hash160 (the oracle `Hk`) against the output's recipient hash.
On mismatch `decode_next_element` returns Error (second conjunct); and
`decode_next_element` never returns Ready carrying the change output — any
Ready result's output index differs from the declared change index (first
conjunct) — so the change output is never surfaced for operator review. -/
theorem decode_change_output_handling (Hk : Nat → List Nat) :
    (∀ c c', decode_next_element Hk c = (c', .TX_STATE_READY) →
      c'.has_change_output = true →
      c'.decoded_output.index ≠ c'.change_output_index) ∧
    (∀ c o k, c.remaining_tokens = 0 → c.remaining_inputs = 0 →
      c.current_output < c.outputs_len →
      c.has_change_output = true → c.change_output_index = c.current_output →
      parse_output c.buffer c.buffer.length c.decoded_output = .ok (o, k) →
      Hk c.change_key_index ≠ o.pubkey_hash →
      (decode_next_element Hk c).2 = .TX_STATE_ERR) := by
  constructor
  · intro c c' h hch
    have hs := decode_next_element_some Hk c
    rw [h] at hs
    exact decode_fuel_ready_not_change Hk _ c c' hs hch
  · intro c o k ht hi ho hch hidx hp hmis
    rw [decode_next_element_eq]
    unfold _decode_next_element
    rw [if_neg (by omega), if_neg (by omega), if_pos ho, hp]
    simp only []
    rw [if_pos (by simp only [Bool.and_eq_true, beq_iff_eq]; exact ⟨hch, hidx⟩)]
    rw [if_neg (by simp only [verify_change_output, beq_iff_eq]; exact hmis)]

/-- A zeroed `tx_output_t` (the decoded-output slot of a freshly zeroed
session context). -/
def zero_output : tx_output_t :=
  { index := 0, value := 0, token_data := 0, pubkey_hash := List.replicate 20 0 }

/-- A 32-byte P2PKH output element: value 5 (4-byte form), token_data 0,
script length 25, script `76 A9 14 (20 bytes of 7) 88 AC`. -/
def p2pkh_output_bytes : List Nat :=
  [0, 0, 0, 5, 0, 0, 25, 0x76, 0xA9, 20] ++ List.replicate 20 7 ++ [0x88, 0xAC]

/-- A receiving-state session about to decode a single output. -/
def base_ctx : sign_tx_context_t :=
  { state := .RECEIVING_DATA
    buffer := p2pkh_output_bytes
    sha256 := { transcript := [], consumed := false }
    sighash_all := List.replicate 32 0
    has_change_output := false
    change_output_index := 0
    change_key_index := 0
    remaining_tokens := 0
    remaining_inputs := 0
    outputs_len := 1
    elem_type := .ELEM_TOKEN_UID
    current_output := 0
    decoded_output := zero_output
    display_index := 0 }

/-- `base_ctx` with output 0 declared as the change output for key index 3. -/
def c1_ctx : sign_tx_context_t :=
  { base_ctx with has_change_output := true, change_output_index := 0, change_key_index := 3 }

/-- Witness for C1: at a concrete session whose declared change output (index
0, key index 3) carries recipient hash `7^20` while the derived hash is
`9^20`, the decoder returns Error. -/
theorem decode_change_output_handling_witness :
    (decode_next_element (fun _ => List.replicate 20 9) c1_ctx).2 = .TX_STATE_ERR :=
  (decode_change_output_handling (fun _ => List.replicate 20 9)).2 c1_ctx
    { zero_output with value := 5, pubkey_hash := List.replicate 20 7 } 32
    rfl rfl (by decide) rfl rfl rfl (by decide)

/-- `base_ctx` declaring change-output index 1 while only one output exists. -/
def c6_ctx : sign_tx_context_t :=
  { base_ctx with has_change_output := true, change_output_index := 1, change_key_index := 3 }

/-- C6 counterexample: a session whose declared change-output index (1) is not
below the declared output count (1) is not rejected: decoding proceeds and
returns Ready, surfacing output 0 for operator review, with no fatal parse
error. -/
theorem change_index_out_of_range_not_rejected :
    c6_ctx.outputs_len ≤ c6_ctx.change_output_index ∧
    (decode_next_element (fun _ => List.replicate 20 9) c6_ctx).2 = .TX_STATE_READY := by
  exact ⟨by decide, rfl⟩

/-- C6 amended: the code never validates the declared change-output index
against the output count. When `outputs_len ≤ change_output_index`, a decoded
output (index `current_output < outputs_len`) can never match the change
index, so the decoder returns Ready carrying it — every output is surfaced
for operator review and the session is not rejected on account of the
out-of-range declaration. -/
theorem change_index_out_of_range_all_surfaced (Hk : Nat → List Nat)
    (c : sign_tx_context_t) (o : tx_output_t) (k : Nat)
    (hrange : c.outputs_len ≤ c.change_output_index)
    (ht : c.remaining_tokens = 0) (hi : c.remaining_inputs = 0)
    (ho : c.current_output < c.outputs_len)
    (hp : parse_output c.buffer c.buffer.length c.decoded_output = .ok (o, k)) :
    (decode_next_element Hk c).2 = .TX_STATE_READY ∧
    (decode_next_element Hk c).1.decoded_output = { o with index := c.current_output } := by
  rw [decode_next_element_eq]
  unfold _decode_next_element
  rw [if_neg (by omega), if_neg (by omega), if_pos ho, hp]
  simp only []
  rw [if_neg (by simp only [Bool.and_eq_true, beq_iff_eq]; rintro ⟨-, heq⟩; omega)]
  exact ⟨rfl, rfl⟩

/-- Witness for the amended C6 at the concrete out-of-range session. -/
theorem change_index_out_of_range_all_surfaced_witness :
    (decode_next_element (fun _ => List.replicate 20 9) c6_ctx).2 = .TX_STATE_READY ∧
    (decode_next_element (fun _ => List.replicate 20 9) c6_ctx).1.decoded_output =
      { zero_output with value := 5, pubkey_hash := List.replicate 20 7, index := 0 } :=
  change_index_out_of_range_all_surfaced (fun _ => List.replicate 20 9) c6_ctx
    { zero_output with value := 5, pubkey_hash := List.replicate 20 7 } 32
    (by decide) rfl rfl (by decide) rfl

/-- A session whose buffer holds an output in the 8-byte value form, one byte
short of complete: 8 value bytes, token_data, 2-byte script length (25), and
only 24 of the 25 script bytes. -/
def c7_ctx : sign_tx_context_t :=
  { base_ctx with
    buffer := [0x80, 0, 0, 0, 0, 0, 0, 1, 0, 0, 25, 0x76, 0xA9, 20]
      ++ List.replicate 20 7 ++ [0x88] }

/-- C7, evaluated at the failing input: the working buffer holds 35 of the 36
bytes the pending output element requires (8-byte value form, script one byte
short), yet `decode_next_element` does not return Partial: `parse_output`'s
guard `assert_length(script_len, inlen - 7)` discounts only the 4-byte value
form's 7 leading bytes, so with the 8-byte form it passes despite the
shortage, the P2PKH validation reads past the valid bytes, and the decoder
returns Error — the session is torn down instead of awaiting more data. -/
theorem truncated_8byte_output_not_partial :
    c7_ctx.buffer.length = 35 ∧ 11 + U2BE c7_ctx.buffer 9 = 36 ∧
    decode_next_element (fun _ => List.replicate 20 9) c7_ctx = (c7_ctx, .TX_STATE_ERR) :=
  ⟨rfl, rfl, rfl⟩

/-- The zeroed global context (`os_memset(&global, 0, sizeof(global))` in
main.c's `ui_idle` and in `hathor_main`'s error catch): enum value 0 is
`UNINITIALIZED` / `ELEM_TOKEN_UID`, all counters and bytes are 0. -/
def zero_ctx : sign_tx_context_t :=
  { state := .UNINITIALIZED
    buffer := []
    sha256 := { transcript := [], consumed := false }
    sighash_all := List.replicate 32 0
    has_change_output := false
    change_output_index := 0
    change_key_index := 0
    remaining_tokens := 0
    remaining_inputs := 0
    outputs_len := 0
    elem_type := .ELEM_TOKEN_UID
    current_output := 0
    decoded_output := zero_output
    display_index := 0 }

/-- The 32-byte array view of a digest value (`cx_hash` writes 32 bytes). -/
def bytes32 (l : List Nat) : List Nat := (List.range 32).map (fun i => l.getD i 0)

/-- `cx_hash(ctx, 0, data, len, NULL, 0)`: feed bytes into the running hash. -/
def cx_hash_feed (h : cx_sha256_t) (data : List Nat) : cx_sha256_t :=
  { h with transcript := h.transcript ++ data }

/-- `cx_hash(ctx, CX_LAST, data, len, out, 32)`: append `data` and finalize.
`H` is the SHA-256 oracle; `Hc` is a second oracle for the SDK's (otherwise
unspecified) digest when a context that was already finalized (`consumed`)
is finalized again without `cx_sha256_init` — reachable only through
`handle_sign_tx`'s re-finalization path. -/
def cx_hash_final (H Hc : List Nat → List Nat) (h : cx_sha256_t) (data : List Nat) :
    List Nat × cx_sha256_t :=
  let t := h.transcript ++ data
  (if h.consumed then Hc t else H t, { transcript := t, consumed := true })

/-- What one `handle_sign_tx` invocation did: the status words it sent
(`io_exchange_with_code`, or a THROW reaching `hathor_main`'s catch), the key
indexes passed to `derive_keypair`, the (digest, key index) pairs passed to
`cx_ecdsa_sign`, whether `ui_idle` ran (zeroing the global context), whether
the sighash finalization branch ran, and the context afterwards. -/
structure handler_result where
  ctx : sign_tx_context_t
  sent : List Nat
  derived : List Nat
  signed : List (List Nat × Nat)
  idled : Bool
  did_finalize : Bool
deriving Repr, DecidableEq

/-- src/sign_tx.c `handle_sign_tx`, `p1 = 1` (signing phase). Before
approval: developer-error status, `ui_idle`, no derivation. After approval:
derive the requested key; if `sighash_all[0] == '\0'` finalize the running
hash (zero further bytes) into `sighash_all` and re-hash those 32 bytes once
more with a re-initialized context; sign `sighash_all`. -/
def handle_sign_tx_sign (H Hc : List Nat → List Nat) (c : sign_tx_context_t)
    (data_buffer : List Nat) : handler_result :=
  if c.state ≠ .USER_APPROVED then
    { ctx := zero_ctx, sent := [SW_DEVELOPER_ERR], derived := [], signed := [],
      idled := true, did_finalize := false }
  else
    let key_index := U4BE data_buffer 0
    if c.sighash_all.getD 0 0 == 0 then
      let r1 := cx_hash_final H Hc c.sha256 []
      let sighash1 := bytes32 r1.1
      let r2 := cx_hash_final H Hc { transcript := [], consumed := false } sighash1
      let sighash2 := bytes32 r2.1
      { ctx := { c with sha256 := r2.2, sighash_all := sighash2 }
        sent := [SW_OK], derived := [key_index], signed := [(sighash2, key_index)],
        idled := false, did_finalize := true }
    else
      { ctx := c, sent := [SW_OK], derived := [key_index],
        signed := [(c.sighash_all, key_index)], idled := false, did_finalize := false }

/-- src/sign_tx.c `parse_change_output_info`: first byte says whether a
change output is declared; if so, one byte of output index and four bytes of
key index follow. Returns the updated context and the prefix size (1 or 6);
`.error` is an `assert_length` THROW (uncaught in `handle_sign_tx`, so it
reaches `hathor_main`'s catch). -/
def parse_change_output_info (c : sign_tx_context_t) (inb : List Nat) (inlen : Nat) :
    Except Nat (sign_tx_context_t × Nat) :=
  if 1 > inlen then .error SW_INVALID_PARAM
  else
    let c1 := { c with has_change_output := decide (0 < inb.getD 0 0) }
    if c1.has_change_output then
      if 5 > inlen - 1 then .error SW_INVALID_PARAM
      else .ok ({ c1 with
                  change_output_index := inb.getD 1 0
                  change_key_index := U4BE inb 2 }, 6)
    else .ok (c1, 1)

/-- src/sign_tx.c `handle_sign_tx`, `p1 = 0` (transaction data), up to the
decode switch: reject after approval; on the first chunk initialize the
session, parse the change-output prefix, feed everything after the prefix to
the running hash, read the 5-byte header (version, token, input and output
counts) and move the rest to the working buffer; on later chunks feed and
append the whole chunk. `.error` is a THROW of a status word. -/
def handle_sign_tx_receive_pre (c : sign_tx_context_t) (data_buffer : List Nat) :
    Except Nat sign_tx_context_t :=
  let data_length := data_buffer.length
  if c.state = .UNINITIALIZED then
    let c0 := { c with
                state := sign_tx_state_e.RECEIVING_DATA
                buffer := []
                has_change_output := false
                change_output_index := 0
                change_key_index := 0
                current_output := 0
                display_index := 0
                sighash_all := c.sighash_all.set 0 0
                sha256 := { transcript := [], consumed := false } }
    match parse_change_output_info c0 data_buffer data_length with
    | .error sw => .error sw
    | .ok (c1, offset) =>
      let c2 := { c1 with sha256 := cx_hash_feed c1.sha256 (data_buffer.drop offset) }
      if 5 > data_length - offset then .error SW_INVALID_PARAM
      else .ok { c2 with
                 remaining_tokens := data_buffer.getD (offset + 2) 0
                 remaining_inputs := data_buffer.getD (offset + 3) 0
                 outputs_len := data_buffer.getD (offset + 4) 0
                 buffer := data_buffer.drop (offset + 5) }
  else
    .ok { c with
          sha256 := cx_hash_feed c.sha256 data_buffer
          buffer := c.buffer ++ data_buffer }

/-- src/sign_tx.c `handle_sign_tx`, `p1 = 0`: the approval gate, the receive
prologue, then the decode switch (Error → invalid-parameter + `ui_idle`;
Partial → `THROW(SW_OK)`, context kept; Ready/Finished → show the compare or
confirm screen and defer the reply). -/
def handle_sign_tx_receive (Hk : Nat → List Nat) (c : sign_tx_context_t)
    (data_buffer : List Nat) : handler_result :=
  if c.state = .USER_APPROVED then
    { ctx := zero_ctx, sent := [SW_INVALID_PARAM], derived := [], signed := [],
      idled := true, did_finalize := false }
  else
    match handle_sign_tx_receive_pre c data_buffer with
    | .error sw =>
      -- hathor_main's CATCH_OTHER: e ≠ SW_OK zeroes the global state
      { ctx := zero_ctx, sent := [sw], derived := [], signed := [],
        idled := false, did_finalize := false }
    | .ok c2 =>
      match decode_next_element Hk c2 with
      | (_, .TX_STATE_ERR) =>
        { ctx := zero_ctx, sent := [SW_INVALID_PARAM], derived := [], signed := [],
          idled := true, did_finalize := false }
      | (c3, .TX_STATE_PARTIAL) =>
        -- THROW(SW_OK): hathor_main's catch sends it and keeps the state
        { ctx := c3, sent := [SW_OK], derived := [], signed := [],
          idled := false, did_finalize := false }
      | (c3, .TX_STATE_READY) =>
        { ctx := c3, sent := [], derived := [], signed := [],
          idled := false, did_finalize := false }
      | (c3, .TX_STATE_FINISHED) =>
        { ctx := c3, sent := [], derived := [], signed := [],
          idled := false, did_finalize := false }

/-- src/sign_tx.c `handle_sign_tx`: dispatch on `p1`. The C body is three
consecutive `if`s (no `else`); since `p1` is one byte at most one fires, and
an unknown `p1` falls through with no response. `p1 = 2` sends success and
calls `ui_idle` whatever the state. -/
def handle_sign_tx (Hk : Nat → List Nat) (H Hc : List Nat → List Nat)
    (p1 : Nat) (c : sign_tx_context_t) (data_buffer : List Nat) : handler_result :=
  if p1 = 2 then
    { ctx := zero_ctx, sent := [SW_OK], derived := [], signed := [],
      idled := true, did_finalize := false }
  else if p1 = 1 then handle_sign_tx_sign H Hc c data_buffer
  else if p1 = 0 then handle_sign_tx_receive Hk c data_buffer
  else
    { ctx := c, sent := [], derived := [], signed := [],
      idled := false, did_finalize := false }

/-- C2: a signing request (`p1 = 1`) in any session state other than
UserApproved responds with the developer-error status, performs no key
derivation, and returns the device to idle with the global context zeroed;
only in UserApproved does the handler derive the requested key and produce
exactly one signature. -/
theorem sign_request_gated_on_approval (Hk : Nat → List Nat) (H Hc : List Nat → List Nat)
    (c : sign_tx_context_t) (data : List Nat) :
    (c.state ≠ .USER_APPROVED →
      handle_sign_tx Hk H Hc 1 c data =
        { ctx := zero_ctx, sent := [SW_DEVELOPER_ERR], derived := [], signed := [],
          idled := true, did_finalize := false }) ∧
    (c.state = .USER_APPROVED →
      (handle_sign_tx Hk H Hc 1 c data).derived = [U4BE data 0] ∧
      (handle_sign_tx Hk H Hc 1 c data).signed.length = 1 ∧
      (handle_sign_tx Hk H Hc 1 c data).idled = false) := by
  constructor
  · intro h
    simp [handle_sign_tx, handle_sign_tx_sign, h]
  · intro h
    simp only [handle_sign_tx, handle_sign_tx_sign, h]
    norm_num
    split <;> simp

/-- Witness for C2: an idle (zeroed) session answers a signing request with
the developer-error status and derives nothing. -/
theorem sign_request_gated_on_approval_witness :
    handle_sign_tx (fun _ => []) id id 1 zero_ctx [0, 0, 0, 5] =
      { ctx := zero_ctx, sent := [SW_DEVELOPER_ERR], derived := [], signed := [],
        idled := true, did_finalize := false } :=
  (sign_request_gated_on_approval (fun _ => []) id id zero_ctx [0, 0, 0, 5]).1 (by decide)

/-- C4: transaction data (`p1 = 0`) while the session is UserApproved is
answered with the invalid-parameter status and the session is discarded
(`ui_idle` zeroes the global context); the outcome does not depend on the
request's bytes, which therefore never reach the digest accumulator or the
working buffer. -/
theorem receive_after_approval_rejected (Hk : Nat → List Nat) (H Hc : List Nat → List Nat)
    (c : sign_tx_context_t) (data data' : List Nat) (h : c.state = .USER_APPROVED) :
    handle_sign_tx Hk H Hc 0 c data =
      { ctx := zero_ctx, sent := [SW_INVALID_PARAM], derived := [], signed := [],
        idled := true, did_finalize := false } ∧
    handle_sign_tx Hk H Hc 0 c data = handle_sign_tx Hk H Hc 0 c data' := by
  constructor
  · simp [handle_sign_tx, handle_sign_tx_receive, h]
  · simp [handle_sign_tx, handle_sign_tx_receive, h]

/-- Witness for C4: an approved session rejects further data chunks with the
invalid-parameter status whatever their bytes. -/
theorem receive_after_approval_rejected_witness :
    handle_sign_tx (fun _ => []) id id 0 { zero_ctx with state := .USER_APPROVED } [1, 2, 3] =
      { ctx := zero_ctx, sent := [SW_INVALID_PARAM], derived := [], signed := [],
        idled := true, did_finalize := false } :=
  (receive_after_approval_rejected (fun _ => []) id id
    { zero_ctx with state := .USER_APPROVED } [1, 2, 3] [] rfl).1

/-- C10: a completion request (`p1 = 2`) in every session state — including
Uninitialized and ReceivingData, before any approval — responds with the
success status and returns the device to idle, zeroing the entire global
session context; a half-received, unapproved transaction is abandoned with a
success status. -/
theorem completion_always_succeeds (Hk : Nat → List Nat) (H Hc : List Nat → List Nat)
    (c : sign_tx_context_t) (data : List Nat) :
    handle_sign_tx Hk H Hc 2 c data =
      { ctx := zero_ctx, sent := [SW_OK], derived := [], signed := [],
        idled := true, did_finalize := false } := by
  simp [handle_sign_tx]

/-- uint8 cast of the int difference `a - b` for `a < 256`, `b ≤ 256`. -/
def sub8 (a b : Nat) : Nat := (a + 256 - b) % 256

/-- src/sign_tx.c `prepare_display_output`, first display line: the numbers
rendered as "Output <fake_output_index>/<total_outputs>", with the C uint8
arithmetic explicit: `total_outputs = has_change ? outputs_len - 2 :
outputs_len - 1` and `fake_output_index = (has_change && index <
change_output_index) ? index : index - 1`. -/
def prepare_display_output_line1 (c : sign_tx_context_t) : Nat × Nat :=
  let total_outputs :=
    if c.has_change_output = true then sub8 c.outputs_len 2 else sub8 c.outputs_len 1
  let fake_output_index :=
    if c.has_change_output = true ∧ c.decoded_output.index < c.change_output_index
      then c.decoded_output.index else sub8 c.decoded_output.index 1
  (fake_output_index, total_outputs)

/-- C8, evaluated at the failing input: reviewing a 2-output transaction with
no declared change output, the code labels the first output "Output 255/1"
(uint8 underflow of `0 - 1`) and the second "Output 0/1" — not the claimed
"1 of 2" and "2 of 2": with no change output the code still subtracts 1 from
the 0-based output index and displays `outputs_len - 1` as the total. -/
theorem display_output_label_wrong :
    prepare_display_output_line1 { base_ctx with
      outputs_len := 2
      decoded_output := { zero_output with index := 0 } } = (255, 1) ∧
    prepare_display_output_line1 { base_ctx with
      outputs_len := 2
      decoded_output := { zero_output with index := 1 } } = (0, 1) := ⟨rfl, rfl⟩

/-- 32-bit right rotation. -/
def rotr32 (x n : Nat) : Nat := ((x >>> n) ||| (x <<< (32 - n))) % 2 ^ 32

/-- The SHA-256 round constants (FIPS 180-4). -/
def sha256K : List Nat :=
  [1116352408, 1899447441, 3049323471, 3921009573, 961987163, 1508970993,
   2453635748, 2870763221, 3624381080, 310598401, 607225278, 1426881987,
   1925078388, 2162078206, 2614888103, 3248222580, 3835390401, 4022224774,
   264347078, 604807628, 770255983, 1249150122, 1555081692, 1996064986,
   2554220882, 2821834349, 2952996808, 3210313671, 3336571891, 3584528711,
   113926993, 338241895, 666307205, 773529912, 1294757372, 1396182291,
   1695183700, 1986661051, 2177026350, 2456956037, 2730485921, 2820302411,
   3259730800, 3345764771, 3516065817, 3600352804, 4094571909, 275423344,
   430227734, 506948616, 659060556, 883997877, 958139571, 1322822218,
   1537002063, 1747873779, 1955562222, 2024104815, 2227730452, 2361852424,
   2428436474, 2756734187, 3204031479, 3329325298]

/-- The SHA-256 initial state (FIPS 180-4). -/
def sha256init : List Nat :=
  [1779033703, 3144134277, 1013904242, 2773480762, 1359893119, 2600822924,
   528734635, 1541459225]

/-- SHA-256 message padding. -/
def sha256pad (msg : List Nat) : List Nat :=
  msg ++ [0x80] ++ List.replicate ((119 - msg.length % 64) % 64) 0
    ++ (List.range 8).map (fun i => (msg.length * 8) >>> (8 * (7 - i)) % 256)

/-- SHA-256 small sigma 0. -/
def sha256sigma0 (x : Nat) : Nat := ((rotr32 x 7) ^^^ (rotr32 x 18) ^^^ (x >>> 3))

/-- SHA-256 small sigma 1. -/
def sha256sigma1 (x : Nat) : Nat := ((rotr32 x 17) ^^^ (rotr32 x 19) ^^^ (x >>> 10))

/-- SHA-256 message schedule: extend 16 words to 64. -/
def sha256extend (w : List Nat) : List Nat :=
  (List.range 48).foldl (fun w i =>
    w ++ [(sha256sigma1 (w.getD (i + 14) 0) + w.getD (i + 9) 0
           + sha256sigma0 (w.getD (i + 1) 0) + w.getD i 0) % 2 ^ 32]) w

/-- One SHA-256 round on the state `[a,b,c,d,e,f,g,h]`. -/
def sha256round (s : List Nat) (k w : Nat) : List Nat :=
  match s with
  | [a, b, c, d, e, f, g, h2] =>
    let t1 := (h2 + ((rotr32 e 6) ^^^ (rotr32 e 11) ^^^ (rotr32 e 25))
      + ((e &&& f) ^^^ ((e ^^^ 0xFFFFFFFF) &&& g)) + k + w) % 2 ^ 32
    let t2 := (((rotr32 a 2) ^^^ (rotr32 a 13) ^^^ (rotr32 a 22))
      + ((a &&& b) ^^^ (a &&& c) ^^^ (b &&& c))) % 2 ^ 32
    [(t1 + t2) % 2 ^ 32, a, b, c, (d + t1) % 2 ^ 32, e, f, g]
  | _ => s

/-- SHA-256 compression of one 64-byte block into the running state. -/
def sha256compress (h : List Nat) (block : List Nat) : List Nat :=
  let w := sha256extend ((List.range 16).map (fun i =>
    beNat ((List.range 4).map (fun j => block.getD (4 * i + j) 0))))
  let s := (List.range 64).foldl (fun s i => sha256round s (sha256K.getD i 0) (w.getD i 0)) h
  (List.range 8).map (fun i => (h.getD i 0 + s.getD i 0) % 2 ^ 32)

/-- SHA-256 of a byte list (FIPS 180-4): the concrete instantiation of the
SDK's `cx_sha256` collaborator, used to evaluate the signing flow at
concrete inputs (checked against standard test vectors). -/
def sha256bytes (msg : List Nat) : List Nat :=
  let p := sha256pad msg
  let hfin := ((List.range (p.length / 64)).map (fun i => (p.drop (64 * i)).take 64)).foldl
    sha256compress sha256init
  hfin.foldr (fun w acc =>
    [(w >>> 24) % 256, (w >>> 16) % 256, (w >>> 8) % 256, w % 256] ++ acc) []

/-- A valid signable payload (version `0x0001`; 0 tokens, 0 inputs, 1 output;
the output: value 5, token_data 0, script length 25, P2PKH script for the
recipient hash `75 02 00 07*17`) chosen so that the double SHA-256 of the
payload begins with the byte `0x00`. -/
def c3_payload : List Nat :=
  [0, 1, 0, 0, 1, 0, 0, 0, 5, 0, 0, 25, 118, 169, 20, 117, 2, 0,
   7, 7, 7, 7, 7, 7, 7, 7, 7, 7, 7, 7, 7, 7, 7, 7, 7, 136, 172]

/-- The session after the whole `c3_payload` transaction arrives in one
`p1 = 0` chunk (prefixed by the `0x00` no-change declaration byte). -/
def c3_recv : handler_result :=
  handle_sign_tx (fun _ => List.replicate 20 9) sha256bytes sha256bytes 0 zero_ctx (0 :: c3_payload)

/-- The same session after the operator confirms on the final screen
(`ui_sign_tx_confirm_button`, `BUTTON_RIGHT`: `ctx->state = USER_APPROVED`). -/
def c3_approved : sign_tx_context_t := { c3_recv.ctx with state := .USER_APPROVED }

set_option maxRecDepth 100000 in
theorem sha256d_c3_payload_starts_zero :
    (bytes32 (sha256bytes (bytes32 (sha256bytes c3_payload)))).getD 0 0 = 0 := by
  decide

set_option maxRecDepth 100000 in
set_option maxHeartbeats 4000000 in
/-- C3, evaluated at the failing input. Generically, whether a `p1 = 1`
request runs the finalization branch is decided by the session state and the
first byte of `sighash_all` alone (first conjunct). For the received
`c3_payload` session: the digest accumulator holds exactly the post-prefix
payload bytes, unconsumed (second/third conjuncts); the first signature
request finds the `sighash_all[0] == '\0'` marker and signs the double
SHA-256 of the payload, as the claim states (fourth/fifth conjuncts); but
that digest itself begins with `0x00`, so after the first request the marker
byte is again 0 (sixth conjunct) and the next signature request of the same
session re-runs the finalization branch on the already-consumed context
(last conjunct) instead of signing the same cached 32-byte digest. -/
theorem sighash_refinalized_when_digest_starts_zero :
    (∀ (Hk : Nat → List Nat) (H Hc : List Nat → List Nat) (c : sign_tx_context_t)
      (d : List Nat),
      (handle_sign_tx Hk H Hc 1 c d).did_finalize =
        (decide (c.state = .USER_APPROVED) && (c.sighash_all.getD 0 0 == 0))) ∧
    c3_recv.ctx.sha256.transcript = c3_payload ∧
    c3_recv.ctx.sha256.consumed = false ∧
    c3_approved.sighash_all.getD 0 0 = 0 ∧
    (handle_sign_tx (fun _ => List.replicate 20 9) sha256bytes sha256bytes 1 c3_approved
        [0, 0, 0, 5]).signed =
      [(bytes32 (sha256bytes (bytes32 (sha256bytes c3_payload))), 5)] ∧
    (handle_sign_tx (fun _ => List.replicate 20 9) sha256bytes sha256bytes 1 c3_approved
        [0, 0, 0, 5]).ctx.sighash_all.getD 0 0 = 0 ∧
    (handle_sign_tx (fun _ => List.replicate 20 9) sha256bytes sha256bytes 1
        (handle_sign_tx (fun _ => List.replicate 20 9) sha256bytes sha256bytes 1 c3_approved
          [0, 0, 0, 5]).ctx [0, 0, 0, 5]).did_finalize = true := by
  refine ⟨?_, rfl, rfl, by decide, by decide, by decide, by decide⟩
  intro Hk H Hc c d
  by_cases h : c.state = .USER_APPROVED
  · simp only [handle_sign_tx, handle_sign_tx_sign, h]
    norm_num
    by_cases hz : c.sighash_all[0]?.getD 0 = 0 <;> simp [hz]
  · simp [handle_sign_tx, handle_sign_tx_sign, h]

/-- src/sign_tx.c `handle_sign_tx`, `p1 = 0`, later chunks: feed the bytes to
the running hash and append them to the working buffer. -/
def receive_more (c : sign_tx_context_t) (data : List Nat) : sign_tx_context_t :=
  { c with sha256 := cx_hash_feed c.sha256 data, buffer := c.buffer ++ data }

/-- One review round with explicit fuel: run `_decode_next_element` until it
throws a non-Ready state, collecting each Ready output in order. This is the
composite loop the code runs between two host messages: `decode_next_element`
loops `_decode_next_element` until a throw, and on Ready the operator's
both-buttons press (`ui_sign_tx_compare_button`) calls `decode_next_element`
again on the same session (see `drain_eq_decode`). -/
def drain (Hk : Nat → List Nat) :
    Nat → sign_tx_context_t →
      Option (sign_tx_context_t × List tx_output_t × tx_decoder_state_e)
  | 0, _ => none
  | fuel + 1, c =>
    match _decode_next_element Hk c with
    | .ok c' => drain Hk fuel c'
    | .error (c', .TX_STATE_READY) =>
      (drain Hk fuel c').map (fun r => (r.1, c'.decoded_output :: r.2.1, r.2.2))
    | .error (c', s) => some (c', [], s)

/-- The review round with adequate fuel (see `drain_isSome`). -/
def review_next (Hk : Nat → List Nat) (c : sign_tx_context_t) :
    sign_tx_context_t × List tx_output_t × tx_decoder_state_e :=
  (drain Hk (decode_measure c + 1) c).getD (c, [], .TX_STATE_ERR)

/-- The outcome of driving the transaction-data phase over a chunk sequence. -/
inductive run_result where
  | err (sw : Nat)
  | stalled
  | finished (c : sign_tx_context_t) (outs : List tx_output_t)
deriving Repr, DecidableEq

/-- Drive one session over the remaining chunks: review until the decoder
stops; Finished goes to the confirm screen (surfaced outputs collected); Err
tears the session down (`SW_INVALID_PARAM`); Partial answers `SW_OK` and
consumes the next chunk through the `p1 = 0` receiving branch. `stalled`
means the decoder still awaits data but no chunk is left. -/
def session_loop (Hk : Nat → List Nat) :
    List (List Nat) → sign_tx_context_t → run_result
  | chunks, c =>
    match review_next Hk c with
    | (c', outs, .TX_STATE_FINISHED) => .finished c' outs
    | (_, _, .TX_STATE_ERR) => .err SW_INVALID_PARAM
    | (_, _, .TX_STATE_READY) => .err SW_INVALID_PARAM
    | (c', outs, .TX_STATE_PARTIAL) =>
      match chunks with
      | [] => .stalled
      | ch :: rest =>
        match session_loop Hk rest (receive_more c' ch) with
        | .finished cF outsF => .finished cF (outs ++ outsF)
        | r => r

/-- Feed a chunked transaction through the `p1 = 0` phase from an idle
session: the first chunk goes through the initialization path (change-output
prefix and 5-byte header), the rest through the receiving path. -/
def run_sign_tx_chunks (Hk : Nat → List Nat) : List (List Nat) → run_result
  | [] => .stalled
  | first :: rest =>
    match handle_sign_tx_receive_pre zero_ctx first with
    | .error sw => .err sw
    | .ok c => session_loop Hk rest c

/-- Structural well-formedness of the output section of a signable stream:
each of the `o` outputs uses the 4-byte value form, has a script of length at
least 25 that passes the P2PKH check, and is fully present; nothing trails. -/
def good_outputs : Nat → List Nat → Bool
  | 0, s => s.isEmpty
  | o + 1, s =>
    !(s.getD 0 0).testBit 7 && decide (25 ≤ U2BE s 5) && decide (7 + U2BE s 5 ≤ s.length)
      && validate_p2pkh_script s 7 && good_outputs o (s.drop (7 + U2BE s 5))

/-- Structural well-formedness of the input section: each input is 35 bytes
with a zero data length. -/
def good_inputs : Nat → Nat → List Nat → Bool
  | 0, o, s => good_outputs o s
  | i + 1, o, s => decide (35 ≤ s.length) && decide (U2BE s 33 = 0) && good_inputs i o (s.drop 35)

/-- Structural well-formedness of the whole element stream: `t` 32-byte token
uids, then `i` inputs, then `o` outputs. -/
def good_tokens : Nat → Nat → Nat → List Nat → Bool
  | 0, i, o, s => good_inputs i o s
  | t + 1, i, o, s => decide (32 ≤ s.length) && good_tokens t i o (s.drop 32)

/-- The outputs a well-formed output section denotes, as the decoder would
fill them in (`parse_output` plus the decoder's index assignment), starting
at output index `start`. -/
def spec_outputs (start : Nat) : Nat → List Nat → List tx_output_t
  | 0, _ => []
  | o + 1, s =>
    { index := start, value := U4BE s 0, token_data := s.getD 4 0,
      pubkey_hash := read20 s 10 } ::
      spec_outputs (start + 1) o (s.drop (7 + U2BE s 5))

/-- The session `c`, with `e` the stream bytes still to arrive, is decoding a
well-formed stream whose declared change output (if its index is in range)
carries the hash `Hk` yields for the declared key index. -/
def good_elems (Hk : Nat → List Nat) (c : sign_tx_context_t) (e : List Nat) : Prop :=
  good_tokens c.remaining_tokens c.remaining_inputs (c.outputs_len - c.current_output)
    (c.buffer ++ e) = true ∧
  c.current_output ≤ c.outputs_len ∧
  (∀ o ∈ spec_outputs c.current_output (c.outputs_len - c.current_output)
      ((c.buffer ++ e).drop (32 * c.remaining_tokens + 35 * c.remaining_inputs)),
    c.has_change_output = true → o.index = c.change_output_index →
    Hk c.change_key_index = o.pubkey_hash)

theorem _decode_ready_measure (Hk : Nat → List Nat) (c c' : sign_tx_context_t)
    (h : _decode_next_element Hk c = .error (c', .TX_STATE_READY)) :
    decode_measure c' < decode_measure c := by
  unfold _decode_next_element at h
  split at h
  · split at h <;> simp at h
  · split at h
    · split at h
      · simp at h
      · split at h <;> simp at h
    · split at h
      · rename_i hout
        split at h
        · simp only [Except.error.injEq, Prod.mk.injEq] at h
          obtain ⟨-, h2⟩ := h
          rename_i e heq
          cases e <;> simp [decoder_state_of_output_parse_err] at h2
        · simp only [] at h
          split at h
          · split at h
            · simp at h
            · simp only [Except.error.injEq, Prod.mk.injEq] at h
              obtain ⟨hc, -⟩ := h
              subst hc
              simp only [decode_measure]
              omega
          · simp only [Except.error.injEq, Prod.mk.injEq] at h
            obtain ⟨hc, -⟩ := h
            subst hc
            simp only [decode_measure]
            omega
      · split at h <;> simp at h

theorem drain_isSome (Hk : Nat → List Nat) :
    ∀ n c, decode_measure c < n → (drain Hk n c).isSome := by
  intro n
  induction n with
  | zero => intro c h; exact absurd h (by omega)
  | succ n ih =>
    intro c h
    rcases hd : _decode_next_element Hk c with ⟨c', s⟩ | c'
    · match s with
      | .TX_STATE_READY =>
        have hm := _decode_ready_measure Hk c c' hd
        have hs := ih c' (by omega)
        simp only [drain, hd]
        cases hdr : drain Hk n c' with
        | none => rw [hdr] at hs; simp at hs
        | some r => simp
      | .TX_STATE_ERR => simp [drain, hd]
      | .TX_STATE_PARTIAL => simp [drain, hd]
      | .TX_STATE_FINISHED => simp [drain, hd]
    · have hm := _decode_ok_measure Hk c c' hd
      simp only [drain, hd]
      exact ih c' (by omega)

theorem drain_congr (Hk : Nat → List Nat) :
    ∀ n m c, decode_measure c < n → decode_measure c < m →
      drain Hk n c = drain Hk m c := by
  intro n
  induction n with
  | zero => intro m c h _; exact absurd h (by omega)
  | succ n ih =>
    intro m c h hm
    match m with
    | 0 => exact absurd hm (by omega)
    | m' + 1 =>
      rcases hd : _decode_next_element Hk c with ⟨c', s⟩ | c'
      · match s with
        | .TX_STATE_READY =>
          have hlt := _decode_ready_measure Hk c c' hd
          simp only [drain, hd]
          rw [ih m' c' (by omega) (by omega)]
        | .TX_STATE_ERR => simp [drain, hd]
        | .TX_STATE_PARTIAL => simp [drain, hd]
        | .TX_STATE_FINISHED => simp [drain, hd]
      · have hlt := _decode_ok_measure Hk c c' hd
        simp only [drain, hd]
        exact ih m' c' (by omega) (by omega)

theorem review_next_some (Hk : Nat → List Nat) (c : sign_tx_context_t) :
    drain Hk (decode_measure c + 1) c = some (review_next Hk c) := by
  have h := drain_isSome Hk (decode_measure c + 1) c (by omega)
  unfold review_next
  cases hx : drain Hk (decode_measure c + 1) c with
  | none => rw [hx] at h; simp at h
  | some r => simp

theorem review_next_eq (Hk : Nat → List Nat) (c : sign_tx_context_t) :
    review_next Hk c =
      match _decode_next_element Hk c with
      | .ok c' => review_next Hk c'
      | .error (c', .TX_STATE_READY) =>
        ((review_next Hk c').1, c'.decoded_output :: (review_next Hk c').2.1,
          (review_next Hk c').2.2)
      | .error (c', s) => (c', [], s) := by
  rcases hd : _decode_next_element Hk c with ⟨c', s⟩ | c'
  · match s with
    | .TX_STATE_READY =>
      have hm := _decode_ready_measure Hk c c' hd
      have h1 := review_next_some Hk c
      have h2 := review_next_some Hk c'
      have h3 : drain Hk (decode_measure c + 1) c =
          (drain Hk (decode_measure c) c').map
            (fun r => (r.1, c'.decoded_output :: r.2.1, r.2.2)) := by
        simp only [drain, hd]
      have h4 := drain_congr Hk (decode_measure c) (decode_measure c' + 1) c'
        (by omega) (by omega)
      rw [h3, h4, h2] at h1
      simp only [Option.map_some', Option.some.injEq] at h1
      exact h1.symm
    | .TX_STATE_ERR =>
      have h1 := review_next_some Hk c
      simp only [drain, hd] at h1
      simp only [Option.some.injEq] at h1
      exact h1.symm
    | .TX_STATE_PARTIAL =>
      have h1 := review_next_some Hk c
      simp only [drain, hd] at h1
      simp only [Option.some.injEq] at h1
      exact h1.symm
    | .TX_STATE_FINISHED =>
      have h1 := review_next_some Hk c
      simp only [drain, hd] at h1
      simp only [Option.some.injEq] at h1
      exact h1.symm
  · have hm := _decode_ok_measure Hk c c' hd
    have h1 := review_next_some Hk c
    have h2 := review_next_some Hk c'
    have h3 : drain Hk (decode_measure c + 1) c = drain Hk (decode_measure c) c' := by
      simp only [drain, hd]
    have h4 := drain_congr Hk (decode_measure c) (decode_measure c' + 1) c'
      (by omega) (by omega)
    rw [h3, h4, h2] at h1
    simp only [Option.some.injEq] at h1
    exact h1.symm

theorem drain_eq_decode (Hk : Nat → List Nat) : ∀ N c, decode_measure c ≤ N →
    review_next Hk c = (match decode_next_element Hk c with
      | (c', .TX_STATE_READY) =>
        ((review_next Hk c').1, c'.decoded_output :: (review_next Hk c').2.1,
          (review_next Hk c').2.2)
      | (c', s) => (c', [], s)) := by
  intro N
  induction N using Nat.strong_induction_on with
  | _ N ih =>
    intro c hc
    rw [review_next_eq Hk c, decode_next_element_eq Hk c]
    rcases hd : _decode_next_element Hk c with ⟨c', s⟩ | c'
    · cases s <;> rfl
    · have hm := _decode_ok_measure Hk c c' hd
      exact ih (decode_measure c') (by omega) c' le_rfl

/-- The context fields the decoder never writes. -/
def ctx_fixed (c : sign_tx_context_t) :=
  (c.state, c.sha256, c.sighash_all, c.has_change_output, c.change_output_index,
   c.change_key_index, c.outputs_len)

theorem _decode_fixed (Hk : Nat → List Nat) (c : sign_tx_context_t) :
    ∀ r, _decode_next_element Hk c = r →
      ctx_fixed (match r with | .ok c' => c' | .error (c', _) => c') = ctx_fixed c := by
  intro r h
  unfold _decode_next_element at h
  split at h
  · split at h <;> (subst h; simp [ctx_fixed])
  · split at h
    · split at h
      · subst h; simp [ctx_fixed]
      · split at h <;> (subst h; simp [ctx_fixed])
    · split at h
      · split at h
        · subst h; simp [ctx_fixed]
        · simp only [] at h
          split at h
          · split at h <;> (subst h; simp [ctx_fixed])
          · subst h; simp [ctx_fixed]
      · split at h <;> (subst h; simp [ctx_fixed])

theorem review_next_fixed (Hk : Nat → List Nat) : ∀ N c, decode_measure c ≤ N →
    ctx_fixed (review_next Hk c).1 = ctx_fixed c := by
  intro N
  induction N using Nat.strong_induction_on with
  | _ N ih =>
    intro c hc
    rw [review_next_eq Hk c]
    rcases hd : _decode_next_element Hk c with ⟨c', s⟩ | c'
    · have hfix := _decode_fixed Hk c (.error (c', s)) hd
      simp only [] at hfix
      match s with
      | .TX_STATE_READY =>
        have hm := _decode_ready_measure Hk c c' hd
        have := ih (decode_measure c') (by omega) c' le_rfl
        simp only []
        rw [this, hfix]
      | .TX_STATE_ERR => exact hfix
      | .TX_STATE_PARTIAL => exact hfix
      | .TX_STATE_FINISHED => exact hfix
    · have hfix := _decode_fixed Hk c (.ok c') hd
      simp only [] at hfix
      have hm := _decode_ok_measure Hk c c' hd
      have := ih (decode_measure c') (by omega) c' le_rfl
      simp only []
      rw [this, hfix]

theorem getD_pref (b t : List Nat) (i d : Nat) (h : i < b.length) :
    (b ++ t).getD i d = b.getD i d := by
  simp [List.getD, List.getElem?_append, h]

theorem U2BE_pref (b t : List Nat) (off : Nat) (h : off + 1 < b.length) :
    U2BE (b ++ t) off = U2BE b off := by
  unfold U2BE
  rw [getD_pref b t off 0 (by omega), getD_pref b t (off + 1) 0 (by omega)]

theorem U4BE_pref (b t : List Nat) (off : Nat) (h : off + 3 < b.length) :
    U4BE (b ++ t) off = U4BE b off := by
  unfold U4BE
  rw [getD_pref b t off 0 (by omega), getD_pref b t (off + 1) 0 (by omega),
    getD_pref b t (off + 2) 0 (by omega), getD_pref b t (off + 3) 0 (by omega)]

theorem read20_pref (b t : List Nat) (off : Nat) (h : off + 19 < b.length) :
    read20 (b ++ t) off = read20 b off := by
  unfold read20
  refine List.map_congr_left ?_
  intro i hi
  simp only [List.mem_range] at hi
  exact getD_pref b t (off + i) 0 (by omega)

theorem validate_pref (b t : List Nat) (off : Nat) (h : off + 24 < b.length) :
    validate_p2pkh_script (b ++ t) off = validate_p2pkh_script b off := by
  unfold validate_p2pkh_script
  rw [getD_pref b t off 0 (by omega), getD_pref b t (off + 1) 0 (by omega),
    getD_pref b t (off + 2) 0 (by omega), getD_pref b t (off + 23) 0 (by omega),
    getD_pref b t (off + 24) 0 (by omega)]

theorem parse_output_full (f : List Nat) (prev : tx_output_t)
    (hflag : (f.getD 0 0).testBit 7 = false) (hL : 25 ≤ U2BE f 5)
    (hlen : 7 + U2BE f 5 ≤ f.length) (hval : validate_p2pkh_script f 7 = true) :
    parse_output f f.length prev =
      .ok ({ prev with
             value := U4BE f 0
             token_data := f.getD 4 0
             pubkey_hash := read20 f 10 }, 7 + U2BE f 5) := by
  unfold parse_output parse_output_value
  rw [if_neg (by omega), hflag]
  simp only [Bool.false_eq_true, if_false]
  have e1 : (4 : Nat) + 1 = 5 := rfl
  have e2 : (4 : Nat) + 3 = 7 := rfl
  have e3 : (4 : Nat) + 3 + 3 = 10 := rfl
  simp only [e1, e2, e3]
  rw [if_neg (by omega), if_neg (by simp [hval])]

theorem drop_append_le (b e : List Nat) (k : Nat) (h : k ≤ b.length) :
    (b ++ e).drop k = b.drop k ++ e := by
  rw [List.drop_append_eq_append_drop, Nat.sub_eq_zero_of_le h, List.drop_zero]

theorem receive_more_buffer (c : sign_tx_context_t) (e : List Nat) :
    (receive_more c e).buffer = c.buffer ++ e := rfl

theorem parse_output_pref_full (b t : List Nat) (prev : tx_output_t)
    (hflag : ((b ++ t).getD 0 0).testBit 7 = false) (hL : 25 ≤ U2BE (b ++ t) 5)
    (hlen : 7 + U2BE (b ++ t) 5 ≤ b.length)
    (hval : validate_p2pkh_script (b ++ t) 7 = true) :
    parse_output b b.length prev =
      .ok ({ prev with
             value := U4BE (b ++ t) 0
             token_data := (b ++ t).getD 4 0
             pubkey_hash := read20 (b ++ t) 10 }, 7 + U2BE (b ++ t) 5) := by
  have hb32 : 32 ≤ b.length := by omega
  have h0 : b.getD 0 0 = (b ++ t).getD 0 0 := (getD_pref b t 0 0 (by omega)).symm
  have h5 : U2BE b 5 = U2BE (b ++ t) 5 := (U2BE_pref b t 5 (by omega)).symm
  have h4 : b.getD 4 0 = (b ++ t).getD 4 0 := (getD_pref b t 4 0 (by omega)).symm
  have h40 : U4BE b 0 = U4BE (b ++ t) 0 := (U4BE_pref b t 0 (by omega)).symm
  have h20 : read20 b 10 = read20 (b ++ t) 10 := (read20_pref b t 10 (by omega)).symm
  have hv : validate_p2pkh_script b 7 = true := by
    rw [← validate_pref b t 7 (by omega)]
    exact hval
  rw [parse_output_full b prev (by rw [h0]; exact hflag) (by rw [h5]; exact hL)
    (by rw [h5]; exact hlen) hv]
  rw [h40, h4, h20, h5]

theorem parse_output_pref_short (b t : List Nat) (prev : tx_output_t)
    (hflag : ((b ++ t).getD 0 0).testBit 7 = false)
    (hshort : b.length < 7 + U2BE (b ++ t) 5) :
    parse_output b b.length prev = .error .insufficient := by
  unfold parse_output parse_output_value
  by_cases h7 : b.length < 7
  · rw [if_pos (by omega)]
  · rw [if_neg (by omega)]
    have h0 : b.getD 0 0 = (b ++ t).getD 0 0 := (getD_pref b t 0 0 (by omega)).symm
    rw [h0, hflag]
    simp only [Bool.false_eq_true, if_false]
    have e1 : (4 : Nat) + 1 = 5 := rfl
    simp only [e1]
    have h5 : U2BE b 5 = U2BE (b ++ t) 5 := (U2BE_pref b t 5 (by omega)).symm
    rw [if_pos (by rw [h5]; omega)]

theorem step_ok (Hk : Nat → List Nat) (c : sign_tx_context_t) (e : List Nat)
    (hg : good_elems Hk c e) (c' : sign_tx_context_t)
    (h : _decode_next_element Hk c = .ok c') :
    _decode_next_element Hk (receive_more c e) = .ok (receive_more c' e) ∧
      good_elems Hk c' e := by
  obtain ⟨hgood, hle, hchg⟩ := hg
  unfold _decode_next_element at h
  split at h
  · -- a token uid
    rename_i ht
    rcases htok : c.remaining_tokens with - | t
    · omega
    rw [htok] at hgood
    simp only [good_tokens, Bool.and_eq_true, decide_eq_true_eq] at hgood
    obtain ⟨hlen32, hrest⟩ := hgood
    rw [List.length_append] at hlen32
    split at h
    · simp at h
    rename_i hblen
    simp only [Except.ok.injEq] at h
    subst h
    refine ⟨?_, ?_, hle, ?_⟩
    · unfold _decode_next_element
      rw [if_pos (show (receive_more c e).remaining_tokens > 0 from ht)]
      rw [if_neg (show ¬ (receive_more c e).buffer.length < 32 by
        simp [receive_more, List.length_append]; omega)]
      refine congrArg Except.ok ?_
      show ({ receive_more c e with
              remaining_tokens := (receive_more c e).remaining_tokens - 1
              buffer := (receive_more c e).buffer.drop 32
              elem_type := .ELEM_TOKEN_UID }) = _
      simp only [receive_more, receive_more_buffer]
      rw [drop_append_le c.buffer e 32 (by omega)]
    · show good_tokens (c.remaining_tokens - 1) c.remaining_inputs
        (c.outputs_len - c.current_output) ((c.buffer.drop 32) ++ e) = true
      rw [htok]
      rw [← drop_append_le c.buffer e 32 (by omega)]
      exact hrest
    · intro o ho hchange hidx
      refine hchg o ?_ hchange hidx
      show o ∈ spec_outputs c.current_output (c.outputs_len - c.current_output)
        ((c.buffer ++ e).drop (32 * c.remaining_tokens + 35 * c.remaining_inputs))
      have hdrop : ((c.buffer.drop 32 ++ e)).drop
          (32 * (c.remaining_tokens - 1) + 35 * c.remaining_inputs) =
          (c.buffer ++ e).drop (32 * c.remaining_tokens + 35 * c.remaining_inputs) := by
        rw [← drop_append_le c.buffer e 32 (by omega), List.drop_drop]
        have harith : 32 + (32 * (c.remaining_tokens - 1) + 35 * c.remaining_inputs) =
            32 * c.remaining_tokens + 35 * c.remaining_inputs := by omega
        rw [harith]
      rw [← hdrop]
      exact ho
  · rename_i htok
    have htok0 : c.remaining_tokens = 0 := by omega
    split at h
    · -- an input
      rename_i hinp
      rcases hi : c.remaining_inputs with - | i
      · omega
      rw [htok0, hi] at hgood
      simp only [good_tokens, good_inputs, Bool.and_eq_true, decide_eq_true_eq] at hgood
      obtain ⟨⟨hlen35, hdata0⟩, hrest⟩ := hgood
      rw [List.length_append] at hlen35
      split at h
      · simp at h
      rename_i hblen
      split at h
      · simp at h
      rename_i hdata
      simp only [Except.ok.injEq] at h
      subst h
      refine ⟨?_, ?_, hle, ?_⟩
      · unfold _decode_next_element
        rw [if_neg (show ¬ (receive_more c e).remaining_tokens > 0 from htok)]
        rw [if_pos (show (receive_more c e).remaining_inputs > 0 from hinp)]
        rw [if_neg (show ¬ (receive_more c e).buffer.length < 35 by
          simp [receive_more, List.length_append]; omega)]
        rw [if_neg (show ¬ U2BE (receive_more c e).buffer 33 > 0 by
          show ¬ U2BE (c.buffer ++ e) 33 > 0
          rw [U2BE_pref c.buffer e 33 (by omega)]
          exact hdata)]
        refine congrArg Except.ok ?_
        show ({ receive_more c e with
                remaining_inputs := (receive_more c e).remaining_inputs - 1
                buffer := (receive_more c e).buffer.drop 35
                elem_type := .ELEM_INPUT }) = _
        simp only [receive_more, receive_more_buffer]
        rw [drop_append_le c.buffer e 35 (by omega)]
      · show good_tokens c.remaining_tokens (c.remaining_inputs - 1)
          (c.outputs_len - c.current_output) ((c.buffer.drop 35) ++ e) = true
        rw [htok0, hi, ← drop_append_le c.buffer e 35 (by omega)]
        simp only [good_tokens, Nat.add_sub_cancel]
        exact hrest
      · intro o ho hchange hidx
        refine hchg o ?_ hchange hidx
        show o ∈ spec_outputs c.current_output (c.outputs_len - c.current_output)
          ((c.buffer ++ e).drop (32 * c.remaining_tokens + 35 * c.remaining_inputs))
        have hdrop : ((c.buffer.drop 35 ++ e)).drop
            (32 * c.remaining_tokens + 35 * (c.remaining_inputs - 1)) =
            (c.buffer ++ e).drop (32 * c.remaining_tokens + 35 * c.remaining_inputs) := by
          rw [← drop_append_le c.buffer e 35 (by omega), List.drop_drop]
          have harith : 35 + (32 * c.remaining_tokens + 35 * (c.remaining_inputs - 1)) =
              32 * c.remaining_tokens + 35 * c.remaining_inputs := by omega
          rw [harith]
        rw [← hdrop]
        exact ho
    · -- outputs or exhaustion
      rename_i hinp
      have hinp0 : c.remaining_inputs = 0 := by omega
      split at h
      · -- an output
        rename_i hcur
        rcases hO : c.outputs_len - c.current_output with - | o2
        · omega
        rw [htok0, hinp0, hO] at hgood
        simp only [good_tokens, good_inputs, good_outputs, Bool.and_eq_true,
          decide_eq_true_eq, Bool.not_eq_true'] at hgood
        obtain ⟨⟨⟨⟨hflag, hL⟩, hlenf⟩, hval⟩, hrest⟩ := hgood
        have hcomplete : 7 + U2BE (c.buffer ++ e) 5 ≤ c.buffer.length := by
          by_contra hshort
          rw [parse_output_pref_short c.buffer e c.decoded_output hflag (by omega)] at h
          simp at h
        rw [parse_output_pref_full c.buffer e c.decoded_output hflag hL hcomplete hval] at h
        simp only [] at h
        split at h
        · rename_i hcond
          split at h
          · rename_i hverify
            simp only [Except.ok.injEq] at h
            subst h
            refine ⟨?_, ?_, by show c.current_output + 1 ≤ c.outputs_len; omega, ?_⟩
            · unfold _decode_next_element
              rw [if_neg (show ¬ (receive_more c e).remaining_tokens > 0 from htok)]
              rw [if_neg (show ¬ (receive_more c e).remaining_inputs > 0 from hinp)]
              rw [if_pos (show (receive_more c e).current_output <
                (receive_more c e).outputs_len from hcur)]
              rw [show (receive_more c e).buffer = c.buffer ++ e from rfl]
              rw [show (receive_more c e).decoded_output = c.decoded_output from rfl]
              rw [parse_output_full (c.buffer ++ e) c.decoded_output hflag hL hlenf hval]
              simp only [receive_more]
              rw [if_pos hcond, if_pos hverify]
              refine congrArg Except.ok ?_
              rw [drop_append_le c.buffer e (7 + U2BE (c.buffer ++ e) 5) hcomplete]
            · show good_tokens c.remaining_tokens c.remaining_inputs
                (c.outputs_len - (c.current_output + 1))
                ((c.buffer.drop (7 + U2BE (c.buffer ++ e) 5)) ++ e) = true
              rw [htok0, hinp0, ← drop_append_le c.buffer e _ hcomplete]
              simp only [good_tokens, good_inputs]
              have ho2 : c.outputs_len - (c.current_output + 1) = o2 := by omega
              rw [ho2]
              exact hrest
            · intro o ho hchange hidx
              refine hchg o ?_ hchange hidx
              show o ∈ spec_outputs c.current_output (c.outputs_len - c.current_output)
                ((c.buffer ++ e).drop (32 * c.remaining_tokens + 35 * c.remaining_inputs))
              rw [htok0, hinp0, hO]
              norm_num
              simp only [spec_outputs]
              refine List.mem_cons_of_mem _ ?_
              have hbuf : ((c.buffer.drop (7 + U2BE (c.buffer ++ e) 5)) ++ e) =
                  (c.buffer ++ e).drop (7 + U2BE (c.buffer ++ e) 5) :=
                (drop_append_le c.buffer e _ hcomplete).symm
              have ho2 : c.outputs_len - (c.current_output + 1) = o2 := by omega
              rw [← ho2, ← hbuf]
              have hz : 32 * c.remaining_tokens + 35 * c.remaining_inputs = 0 := by omega
              simpa [hz] using ho
          · simp at h
        · simp at h
      · split at h <;> simp at h

theorem good_elems_after_output (Hk : Nat → List Nat) (c : sign_tx_context_t) (e : List Nat)
    (hg : good_elems Hk c e) (htok0 : c.remaining_tokens = 0) (hinp0 : c.remaining_inputs = 0)
    (hcur : c.current_output < c.outputs_len)
    (hcomplete : 7 + U2BE (c.buffer ++ e) 5 ≤ c.buffer.length) (d : tx_output_t) :
    good_elems Hk { c with
                    decoded_output := d
                    elem_type := .ELEM_OUTPUT
                    buffer := c.buffer.drop (7 + U2BE (c.buffer ++ e) 5)
                    current_output := c.current_output + 1 } e := by
  obtain ⟨hgood, hle, hchg⟩ := hg
  rcases hO : c.outputs_len - c.current_output with - | o2
  · omega
  have hgood' := hgood
  rw [htok0, hinp0, hO] at hgood'
  simp only [good_tokens, good_inputs, good_outputs, Bool.and_eq_true,
    decide_eq_true_eq, Bool.not_eq_true'] at hgood'
  obtain ⟨⟨⟨⟨hflag, hL⟩, hlenf⟩, hval⟩, hrest⟩ := hgood'
  refine ⟨?_, by show c.current_output + 1 ≤ c.outputs_len; omega, ?_⟩
  · show good_tokens c.remaining_tokens c.remaining_inputs
      (c.outputs_len - (c.current_output + 1))
      ((c.buffer.drop (7 + U2BE (c.buffer ++ e) 5)) ++ e) = true
    rw [htok0, hinp0, ← drop_append_le c.buffer e _ hcomplete]
    simp only [good_tokens, good_inputs]
    have ho2 : c.outputs_len - (c.current_output + 1) = o2 := by omega
    rw [ho2]
    exact hrest
  · intro o ho hchange hidx
    refine hchg o ?_ hchange hidx
    show o ∈ spec_outputs c.current_output (c.outputs_len - c.current_output)
      ((c.buffer ++ e).drop (32 * c.remaining_tokens + 35 * c.remaining_inputs))
    rw [htok0, hinp0, hO]
    norm_num
    simp only [spec_outputs]
    refine List.mem_cons_of_mem _ ?_
    have hbuf : ((c.buffer.drop (7 + U2BE (c.buffer ++ e) 5)) ++ e) =
        (c.buffer ++ e).drop (7 + U2BE (c.buffer ++ e) 5) :=
      (drop_append_le c.buffer e _ hcomplete).symm
    have ho2 : c.outputs_len - (c.current_output + 1) = o2 := by omega
    rw [← ho2, ← hbuf]
    have hz : 32 * c.remaining_tokens + 35 * c.remaining_inputs = 0 := by omega
    simpa [hz] using ho

theorem step_ready (Hk : Nat → List Nat) (c : sign_tx_context_t) (e : List Nat)
    (hg : good_elems Hk c e) (c' : sign_tx_context_t)
    (h : _decode_next_element Hk c = .error (c', .TX_STATE_READY)) :
    _decode_next_element Hk (receive_more c e) = .error (receive_more c' e, .TX_STATE_READY) ∧
      good_elems Hk c' e := by
  obtain ⟨hgood, hle, hchg⟩ := hg
  unfold _decode_next_element at h
  split at h
  · split at h <;> simp at h
  · split at h
    · split at h
      · simp at h
      · split at h <;> simp at h
    · split at h
      · rename_i htok hinp hcur
        have htok0 : c.remaining_tokens = 0 := by omega
        have hinp0 : c.remaining_inputs = 0 := by omega
        rcases hO : c.outputs_len - c.current_output with - | o2
        · omega
        have hgood' := hgood
        rw [htok0, hinp0, hO] at hgood'
        simp only [good_tokens, good_inputs, good_outputs, Bool.and_eq_true,
          decide_eq_true_eq, Bool.not_eq_true'] at hgood'
        obtain ⟨⟨⟨⟨hflag, hL⟩, hlenf⟩, hval⟩, hrest⟩ := hgood'
        have hcomplete : 7 + U2BE (c.buffer ++ e) 5 ≤ c.buffer.length := by
          by_contra hshort
          rw [parse_output_pref_short c.buffer e c.decoded_output hflag (by omega)] at h
          simp [decoder_state_of_output_parse_err] at h
        rw [parse_output_pref_full c.buffer e c.decoded_output hflag hL hcomplete hval] at h
        simp only [] at h
        split at h
        · split at h <;> simp at h
        · rename_i hcond
          simp only [Except.error.injEq, Prod.mk.injEq] at h
          obtain ⟨hc, -⟩ := h
          subst hc
          constructor
          · unfold _decode_next_element
            rw [if_neg (show ¬ (receive_more c e).remaining_tokens > 0 from htok)]
            rw [if_neg (show ¬ (receive_more c e).remaining_inputs > 0 from hinp)]
            rw [if_pos (show (receive_more c e).current_output <
              (receive_more c e).outputs_len from hcur)]
            rw [show (receive_more c e).buffer = c.buffer ++ e from rfl]
            rw [show (receive_more c e).decoded_output = c.decoded_output from rfl]
            rw [parse_output_full (c.buffer ++ e) c.decoded_output hflag hL hlenf hval]
            simp only [receive_more]
            rw [if_neg hcond]
            rw [drop_append_le c.buffer e (7 + U2BE (c.buffer ++ e) 5) hcomplete]
          · exact good_elems_after_output Hk c e ⟨hgood, hle, hchg⟩ htok0 hinp0 hcur hcomplete _
      · split at h <;> simp at h

theorem step_partial (Hk : Nat → List Nat) (c : sign_tx_context_t) (e : List Nat)
    (hg : good_elems Hk c e) (c' : sign_tx_context_t)
    (h : _decode_next_element Hk c = .error (c', .TX_STATE_PARTIAL)) :
    c' = c ∧ e ≠ [] := by
  obtain ⟨hgood, hle, hchg⟩ := hg
  unfold _decode_next_element at h
  split at h
  · rcases htok : c.remaining_tokens with - | t
    · omega
    rw [htok] at hgood
    simp only [good_tokens, Bool.and_eq_true, decide_eq_true_eq] at hgood
    obtain ⟨hlen32, -⟩ := hgood
    rw [List.length_append] at hlen32
    split at h
    · rename_i hblen
      have hcc : c = c' := by simpa using h
      refine ⟨hcc.symm, ?_⟩
      intro he
      subst he
      simp at hlen32
      omega
    · simp at h
  · split at h
    · rename_i htok hinp
      rcases hi : c.remaining_inputs with - | i
      · omega
      have htok0 : c.remaining_tokens = 0 := by omega
      rw [htok0, hi] at hgood
      simp only [good_tokens, good_inputs, Bool.and_eq_true, decide_eq_true_eq] at hgood
      obtain ⟨⟨hlen35, -⟩, -⟩ := hgood
      rw [List.length_append] at hlen35
      split at h
      · rename_i hblen
        have hcc : c = c' := by simpa using h
        refine ⟨hcc.symm, ?_⟩
        intro he
        subst he
        simp at hlen35
        omega
      · split at h <;> simp at h
    · split at h
      · rename_i htok hinp hcur
        have htok0 : c.remaining_tokens = 0 := by omega
        have hinp0 : c.remaining_inputs = 0 := by omega
        rcases hO : c.outputs_len - c.current_output with - | o2
        · omega
        rw [htok0, hinp0, hO] at hgood
        simp only [good_tokens, good_inputs, good_outputs, Bool.and_eq_true,
          decide_eq_true_eq, Bool.not_eq_true'] at hgood
        obtain ⟨⟨⟨⟨hflag, hL⟩, hlenf⟩, hval⟩, -⟩ := hgood
        split at h
        · rename_i pe heq
          cases pe with
          | insufficient =>
            simp only [decoder_state_of_output_parse_err] at h
            have hcc : c = c' := by simpa using h
            refine ⟨hcc.symm, ?_⟩
            intro he
            subst he
            rw [List.append_nil] at hflag hL hlenf hval
            rw [parse_output_full c.buffer c.decoded_output hflag hL hlenf hval] at heq
            simp at heq
          | badScript => simp [decoder_state_of_output_parse_err] at h
        · simp only [] at h
          split at h
          · split at h <;> simp at h
          · simp at h
      · split at h <;> simp at h

theorem step_noerr (Hk : Nat → List Nat) (c : sign_tx_context_t) (e : List Nat)
    (hg : good_elems Hk c e) (c' : sign_tx_context_t)
    (h : _decode_next_element Hk c = .error (c', .TX_STATE_ERR)) : False := by
  obtain ⟨hgood, hle, hchg⟩ := hg
  unfold _decode_next_element at h
  split at h
  · split at h <;> simp at h
  · split at h
    · rename_i htok hinp
      rcases hi : c.remaining_inputs with - | i
      · omega
      have htok0 : c.remaining_tokens = 0 := by omega
      rw [htok0, hi] at hgood
      simp only [good_tokens, good_inputs, Bool.and_eq_true, decide_eq_true_eq] at hgood
      obtain ⟨⟨-, hdata0⟩, -⟩ := hgood
      split at h
      · simp at h
      · rename_i hblen
        split at h
        · rename_i hdata
          rw [U2BE_pref c.buffer e 33 (by omega)] at hdata0
          omega
        · simp at h
    · split at h
      · rename_i htok hinp hcur
        have htok0 : c.remaining_tokens = 0 := by omega
        have hinp0 : c.remaining_inputs = 0 := by omega
        rcases hO : c.outputs_len - c.current_output with - | o2
        · omega
        have hgood' := hgood
        rw [htok0, hinp0, hO] at hgood'
        simp only [good_tokens, good_inputs, good_outputs, Bool.and_eq_true,
          decide_eq_true_eq, Bool.not_eq_true'] at hgood'
        obtain ⟨⟨⟨⟨hflag, hL⟩, hlenf⟩, hval⟩, -⟩ := hgood'
        split at h
        · rename_i pe heq
          cases pe with
          | insufficient => simp [decoder_state_of_output_parse_err] at h
          | badScript =>
            by_cases hcomp : 7 + U2BE (c.buffer ++ e) 5 ≤ c.buffer.length
            · rw [parse_output_pref_full c.buffer e c.decoded_output hflag hL hcomp hval] at heq
              simp at heq
            · rw [parse_output_pref_short c.buffer e c.decoded_output hflag
                (by omega)] at heq
              simp at heq
        · rename_i o consumed heq
          have hcomp : 7 + U2BE (c.buffer ++ e) 5 ≤ c.buffer.length := by
            by_contra hshort
            rw [parse_output_pref_short c.buffer e c.decoded_output hflag
              (by omega)] at heq
            simp at heq
          rw [parse_output_pref_full c.buffer e c.decoded_output hflag hL hcomp hval] at heq
          simp only [Except.ok.injEq, Prod.mk.injEq] at heq
          obtain ⟨ho, -⟩ := heq
          subst ho
          simp only [] at h
          split at h
          · rename_i hcond
            split at h
            · simp at h
            · rename_i hverify
              have hconj : c.has_change_output = true ∧
                  c.change_output_index = c.current_output := by
                simpa using hcond
              have hmem : tx_output_t.mk c.current_output (U4BE (c.buffer ++ e) 0)
                  ((c.buffer ++ e).getD 4 0) (read20 (c.buffer ++ e) 10) ∈
                  spec_outputs c.current_output (c.outputs_len - c.current_output)
                    ((c.buffer ++ e).drop
                      (32 * c.remaining_tokens + 35 * c.remaining_inputs)) := by
                rw [htok0, hinp0, hO]
                norm_num
                simp only [spec_outputs, List.getD, List.get?_eq_getElem?]
                exact List.mem_cons_self _ _
              have hkey := hchg _ hmem hconj.1 hconj.2.symm
              refine hverify ?_
              show (Hk c.change_key_index == read20 (c.buffer ++ e) 10) = true
              rw [beq_iff_eq]
              exact hkey
          · simp at h
      · rename_i htok hinp hcur
        have htok0 : c.remaining_tokens = 0 := by omega
        have hinp0 : c.remaining_inputs = 0 := by omega
        have hO0 : c.outputs_len - c.current_output = 0 := by omega
        rw [htok0, hinp0, hO0] at hgood
        simp only [good_tokens, good_inputs, good_outputs] at hgood
        simp at hgood
        obtain ⟨hb, -⟩ := hgood
        split at h
        · rename_i hpos
          rw [hb] at hpos
          simp at hpos
        · simp at h

theorem step_finished (Hk : Nat → List Nat) (c : sign_tx_context_t) (e : List Nat)
    (hg : good_elems Hk c e) (c' : sign_tx_context_t)
    (h : _decode_next_element Hk c = .error (c', .TX_STATE_FINISHED)) :
    c' = c ∧ c.buffer = [] ∧ e = [] := by
  obtain ⟨hgood, hle, hchg⟩ := hg
  unfold _decode_next_element at h
  split at h
  · split at h <;> simp at h
  · split at h
    · split at h
      · simp at h
      · split at h <;> simp at h
    · split at h
      · split at h
        · rename_i pe heq
          cases pe <;> simp [decoder_state_of_output_parse_err] at h
        · simp only [] at h
          split at h
          · split at h <;> simp at h
          · simp at h
      · rename_i htok hinp hcur
        have htok0 : c.remaining_tokens = 0 := by omega
        have hinp0 : c.remaining_inputs = 0 := by omega
        have hO0 : c.outputs_len - c.current_output = 0 := by omega
        rw [htok0, hinp0, hO0] at hgood
        simp only [good_tokens, good_inputs, good_outputs] at hgood
        simp at hgood
        obtain ⟨hb, he⟩ := hgood
        split at h
        · simp at h
        · have hcc : c = c' := by simpa using h
          exact ⟨hcc.symm, hb, he⟩

theorem receive_more_nil (c : sign_tx_context_t) : receive_more c [] = c := by
  simp [receive_more, cx_hash_feed]

theorem receive_more_append (c : sign_tx_context_t) (a b : List Nat) :
    receive_more (receive_more c a) b = receive_more c (a ++ b) := by
  simp [receive_more, cx_hash_feed, List.append_assoc]

theorem session_loop_eq (Hk : Nat → List Nat) (chunks : List (List Nat))
    (c : sign_tx_context_t) :
    session_loop Hk chunks c =
      match review_next Hk c with
      | (c', outs, .TX_STATE_FINISHED) => .finished c' outs
      | (_, _, .TX_STATE_ERR) => .err SW_INVALID_PARAM
      | (_, _, .TX_STATE_READY) => .err SW_INVALID_PARAM
      | (c', outs, .TX_STATE_PARTIAL) =>
        match chunks with
        | [] => .stalled
        | ch :: rest =>
          match session_loop Hk rest (receive_more c' ch) with
          | .finished cF outsF => .finished cF (outs ++ outsF)
          | r => r := by
  rw [session_loop]

theorem good_elems_shift (Hk : Nat → List Nat) (c : sign_tx_context_t) (a b : List Nat)
    (hg : good_elems Hk c (a ++ b)) : good_elems Hk (receive_more c a) b := by
  obtain ⟨h1, h2, h3⟩ := hg
  refine ⟨?_, h2, ?_⟩
  · show good_tokens c.remaining_tokens c.remaining_inputs (c.outputs_len - c.current_output)
      ((c.buffer ++ a) ++ b) = true
    rw [List.append_assoc]
    exact h1
  · intro o ho hch hidx
    refine h3 o ?_ hch hidx
    show o ∈ spec_outputs c.current_output (c.outputs_len - c.current_output)
      ((c.buffer ++ (a ++ b)).drop (32 * c.remaining_tokens + 35 * c.remaining_inputs))
    rw [← List.append_assoc]
    exact ho

theorem drain_ext (Hk : Nat → List Nat) : ∀ N c e, decode_measure c ≤ N →
    good_elems Hk c e →
    ((review_next Hk c).2.2 = .TX_STATE_FINISHED ∧ e = [])
    ∨ ((review_next Hk c).2.2 = .TX_STATE_PARTIAL ∧
       good_elems Hk (review_next Hk c).1 e ∧
       review_next Hk (receive_more c e) =
         ((review_next Hk (receive_more (review_next Hk c).1 e)).1,
          (review_next Hk c).2.1 ++
            (review_next Hk (receive_more (review_next Hk c).1 e)).2.1,
          (review_next Hk (receive_more (review_next Hk c).1 e)).2.2)) := by
  intro N
  induction N using Nat.strong_induction_on with
  | _ N ih =>
    intro c e hc hg
    rcases hd : _decode_next_element Hk c with ⟨c1, s⟩ | c1
    · match s with
      | .TX_STATE_READY =>
        obtain ⟨hstep, hg1⟩ := step_ready Hk c e hg c1 hd
        have hm := _decode_ready_measure Hk c c1 hd
        have hrec := ih (decode_measure c1) (by omega) c1 e le_rfl hg1
        rw [review_next_eq Hk c, hd]
        rw [review_next_eq Hk (receive_more c e), hstep]
        simp only []
        rcases hrec with ⟨hfin, he⟩ | ⟨hpart, hg2, hext⟩
        · exact Or.inl ⟨hfin, he⟩
        · refine Or.inr ⟨hpart, hg2, ?_⟩
          rw [hext]
          rfl
      | .TX_STATE_PARTIAL =>
        obtain ⟨hcc, hne⟩ := step_partial Hk c e hg c1 hd
        rw [review_next_eq Hk c, hd]
        refine Or.inr ⟨by simp, ?_, ?_⟩
        · show good_elems Hk c1 e
          rw [hcc]
          exact hg
        · show review_next Hk (receive_more c e) =
            ((review_next Hk (receive_more c1 e)).1,
             [] ++ (review_next Hk (receive_more c1 e)).2.1,
             (review_next Hk (receive_more c1 e)).2.2)
          rw [hcc]
          rfl
      | .TX_STATE_ERR => exact (step_noerr Hk c e hg c1 hd).elim
      | .TX_STATE_FINISHED =>
        obtain ⟨hcc, hb, he⟩ := step_finished Hk c e hg c1 hd
        rw [review_next_eq Hk c, hd]
        exact Or.inl ⟨by simp, he⟩
    · obtain ⟨hstep, hg1⟩ := step_ok Hk c e hg c1 hd
      have hm := _decode_ok_measure Hk c c1 hd
      have hrec := ih (decode_measure c1) (by omega) c1 e le_rfl hg1
      rw [review_next_eq Hk c, hd]
      rw [review_next_eq Hk (receive_more c e), hstep]
      simp only []
      exact hrec

theorem session_ext (Hk : Nat → List Nat) :
    ∀ cs c, good_elems Hk c cs.join →
      session_loop Hk cs c = session_loop Hk [] (receive_more c cs.join) := by
  intro cs
  induction cs with
  | nil =>
    intro c hg
    rw [show List.join ([] : List (List Nat)) = [] from rfl, receive_more_nil]
  | cons ch rest ih =>
    intro c hg
    have hg' : good_elems Hk c (ch ++ rest.join) := by
      rw [show List.join (ch :: rest) = ch ++ rest.join from rfl] at hg
      exact hg
    rcases drain_ext Hk (decode_measure c) c (ch ++ rest.join) le_rfl hg' with
      ⟨hfin, he⟩ | ⟨hpart, hg1, hext⟩
    · obtain ⟨hch, hrj⟩ := List.append_eq_nil.mp he
      rcases hr : review_next Hk c with ⟨c1, outs, s⟩
      rw [hr] at hfin
      simp only [] at hfin
      subst hfin
      rw [show List.join (ch :: rest) = ch ++ rest.join from rfl, hch, hrj]
      simp only [List.append_nil]
      rw [receive_more_nil]
      rw [session_loop_eq Hk ([] :: rest) c, session_loop_eq Hk [] c, hr]
    · rcases hr : review_next Hk c with ⟨c1, outs, s⟩
      rw [hr] at hpart hg1 hext
      simp only [] at hpart hg1 hext
      subst hpart
      rw [session_loop_eq Hk (ch :: rest) c, hr]
      simp only []
      have hg2 : good_elems Hk (receive_more c1 ch) rest.join :=
        good_elems_shift Hk c1 ch rest.join hg1
      rw [ih (receive_more c1 ch) hg2]
      rw [receive_more_append]
      rw [show List.join (ch :: rest) = ch ++ rest.join from rfl]
      rw [session_loop_eq Hk [] (receive_more c (ch ++ rest.join)), hext]
      rw [session_loop_eq Hk [] (receive_more c1 (ch ++ rest.join))]
      rcases hX : review_next Hk (receive_more c1 (ch ++ rest.join)) with ⟨c2, outs2, s2⟩
      cases s2 <;> rfl

/-- Length of the change-output declaration prefix of a transaction stream:
6 bytes when the first byte declares a change output, else 1 (src/sign_tx.c
`parse_change_output_info`). -/
def pre_offset (f : List Nat) : Nat := if 0 < f.getD 0 0 then 6 else 1

/-- The session context `handle_sign_tx_receive_pre` builds from an idle
session and a first chunk `f` that covers the declaration prefix and the
5-byte header (see `receive_pre_eq`): change fields from the prefix, counts
from the header, the hash fed everything past the prefix, the working buffer
holding everything past the header. -/
def pre_ctx (f : List Nat) : sign_tx_context_t :=
  { state := .RECEIVING_DATA
    buffer := f.drop (pre_offset f + 5)
    sha256 := { transcript := f.drop (pre_offset f), consumed := false }
    sighash_all := (List.replicate 32 0).set 0 0
    has_change_output := decide (0 < f.getD 0 0)
    change_output_index := if 0 < f.getD 0 0 then f.getD 1 0 else 0
    change_key_index := if 0 < f.getD 0 0 then U4BE f 2 else 0
    remaining_tokens := f.getD (pre_offset f + 2) 0
    remaining_inputs := f.getD (pre_offset f + 3) 0
    outputs_len := f.getD (pre_offset f + 4) 0
    elem_type := .ELEM_TOKEN_UID
    current_output := 0
    decoded_output := zero_output
    display_index := 0 }

theorem receive_pre_eq (f : List Nat) (hlen : pre_offset f + 5 ≤ f.length) :
    handle_sign_tx_receive_pre zero_ctx f = .ok (pre_ctx f) := by
  by_cases hch : 0 < f.getD 0 0
  · have hoff : pre_offset f = 6 := if_pos hch
    rw [hoff] at hlen
    have hch' : 0 < (f[0]?).getD 0 := by simpa [List.getD] using hch
    simp only [handle_sign_tx_receive_pre, parse_change_output_info, pre_ctx, pre_offset]
    rw [if_pos (show zero_ctx.state = .UNINITIALIZED from rfl)]
    simp [hch, hch', cx_hash_feed, zero_ctx, show ¬ 1 > f.length by omega,
      show ¬ 5 > f.length - 1 by omega, show ¬ 5 > f.length - 6 by omega]
  · have hoff : pre_offset f = 1 := if_neg hch
    rw [hoff] at hlen
    have hch' : ¬ 0 < (f[0]?).getD 0 := by simpa [List.getD] using hch
    simp only [handle_sign_tx_receive_pre, parse_change_output_info, pre_ctx, pre_offset]
    rw [if_pos (show zero_ctx.state = .UNINITIALIZED from rfl)]
    simp [hch, hch', cx_hash_feed, zero_ctx, show ¬ 1 > f.length by omega,
      show ¬ 5 > f.length - 1 by omega]

theorem pre_ctx_ext (f t : List Nat) (hlen : pre_offset f + 5 ≤ f.length) :
    pre_ctx (f ++ t) = receive_more (pre_ctx f) t := by
  have hlen' := hlen
  unfold pre_offset at hlen'
  have h0 : (f ++ t).getD 0 0 = f.getD 0 0 :=
    getD_pref f t 0 0 (by split at hlen' <;> omega)
  by_cases hch : 0 < f.getD 0 0
  · have hoff : pre_offset f = 6 := if_pos hch
    rw [hoff] at hlen
    have h0' : ((f ++ t)[0]?).getD 0 = (f[0]?).getD 0 := by simpa [List.getD] using h0
    have hgf : 0 < (f[0]?).getD 0 := by simpa [List.getD] using hch
    have g1 : ((f ++ t)[1]?).getD 0 = (f[1]?).getD 0 := by
      simpa [List.getD] using getD_pref f t 1 0 (by omega)
    have g8 : ((f ++ t)[8]?).getD 0 = (f[8]?).getD 0 := by
      simpa [List.getD] using getD_pref f t 8 0 (by omega)
    have g9 : ((f ++ t)[9]?).getD 0 = (f[9]?).getD 0 := by
      simpa [List.getD] using getD_pref f t 9 0 (by omega)
    have g10 : ((f ++ t)[10]?).getD 0 = (f[10]?).getD 0 := by
      simpa [List.getD] using getD_pref f t 10 0 (by omega)
    unfold pre_ctx receive_more cx_hash_feed pre_offset
    simp [h0', hgf, g1, g8, g9, g10, U4BE_pref f t 2 (by omega),
      drop_append_le f t 6 (by omega), drop_append_le f t 11 (by omega)]
  · have hoff : pre_offset f = 1 := if_neg hch
    rw [hoff] at hlen
    have h0' : ((f ++ t)[0]?).getD 0 = (f[0]?).getD 0 := by simpa [List.getD] using h0
    have hgf : ¬ 0 < (f[0]?).getD 0 := by simpa [List.getD] using hch
    have g3 : ((f ++ t)[3]?).getD 0 = (f[3]?).getD 0 := by
      simpa [List.getD] using getD_pref f t 3 0 (by omega)
    have g4 : ((f ++ t)[4]?).getD 0 = (f[4]?).getD 0 := by
      simpa [List.getD] using getD_pref f t 4 0 (by omega)
    have g5 : ((f ++ t)[5]?).getD 0 = (f[5]?).getD 0 := by
      simpa [List.getD] using getD_pref f t 5 0 (by omega)
    unfold pre_ctx receive_more cx_hash_feed pre_offset
    simp [h0', hgf, g3, g4, g5, drop_append_le f t 1 (by omega),
      drop_append_le f t 6 (by omega)]

theorem drain_finishes (Hk : Nat → List Nat) : ∀ N c, decode_measure c ≤ N →
    good_elems Hk c [] → (review_next Hk c).2.2 = .TX_STATE_FINISHED := by
  intro N
  induction N using Nat.strong_induction_on with
  | _ N ih =>
    intro c hc hg
    rcases hd : _decode_next_element Hk c with ⟨c1, s⟩ | c1
    · match s with
      | .TX_STATE_READY =>
        obtain ⟨-, hg1⟩ := step_ready Hk c [] hg c1 hd
        have hm := _decode_ready_measure Hk c c1 hd
        rw [review_next_eq Hk c, hd]
        exact ih (decode_measure c1) (by omega) c1 le_rfl hg1
      | .TX_STATE_PARTIAL =>
        obtain ⟨-, hne⟩ := step_partial Hk c [] hg c1 hd
        exact absurd rfl hne
      | .TX_STATE_ERR => exact (step_noerr Hk c [] hg c1 hd).elim
      | .TX_STATE_FINISHED =>
        rw [review_next_eq Hk c, hd]
    · obtain ⟨-, hg1⟩ := step_ok Hk c [] hg c1 hd
      have hm := _decode_ok_measure Hk c c1 hd
      rw [review_next_eq Hk c, hd]
      exact ih (decode_measure c1) (by omega) c1 le_rfl hg1

/-- A complete well-formed signable stream: a no-change declaration byte,
the 5-byte header (version 1, no tokens, no inputs, one output), then one
full 4-byte-value P2PKH output. -/
def c5_stream : List Nat := [0, 0, 1, 0, 0, 1] ++ p2pkh_output_bytes

/-- C5 (counterexample): the code is not invariant under arbitrary chunk
boundaries. The same well-formed transaction stream reaches Finished when
fed as one chunk but is rejected with SW_INVALID_PARAM when fed one byte at
a time: `handle_sign_tx` requires the change-output declaration prefix and
the whole 5-byte header to arrive inside the first chunk
(`THROW(SW_INVALID_PARAM)` when `dataLength - offset < 5`). -/
theorem chunking_first_chunk_too_short_rejected :
    (c5_stream.map (fun b => [b])).join = [c5_stream].join ∧
    (∃ cF outs, run_sign_tx_chunks (fun _ => []) [c5_stream] = .finished cF outs) ∧
    run_sign_tx_chunks (fun _ => []) (c5_stream.map (fun b => [b])) =
      .err SW_INVALID_PARAM := by
  refine ⟨by decide, ⟨_, _, rfl⟩, by decide⟩

/-- C5: chunk boundaries do not matter once the first chunk covers the
change-output declaration prefix and the 5-byte header. For any well-formed
stream (`good_elems` of the post-header session: declared counts matching
4-byte-value, valid-P2PKH, fully present elements, and the declared change
output carrying the declared key's hash), feeding first-chunk `f` followed
by any chunk sequence `rest` gives the same outcome as one giant chunk
`f ++ rest.join`; the run reaches Finished, and the digest accumulator ends
holding exactly the stream minus the declaration prefix. -/
theorem chunk_invariance (Hk : Nat → List Nat) (f : List Nat) (rest : List (List Nat))
    (hlen : pre_offset f + 5 ≤ f.length)
    (hgood : good_elems Hk (pre_ctx f) rest.join) :
    run_sign_tx_chunks Hk (f :: rest) = run_sign_tx_chunks Hk [f ++ rest.join] ∧
    ∃ cF outs, run_sign_tx_chunks Hk (f :: rest) = .finished cF outs ∧
      cF.sha256.transcript = (f ++ rest.join).drop (pre_offset f) := by
  have hpre := receive_pre_eq f hlen
  have hlen2 : pre_offset (f ++ rest.join) + 5 ≤ (f ++ rest.join).length := by
    have hoffeq : pre_offset (f ++ rest.join) = pre_offset f := by
      unfold pre_offset
      rw [getD_pref f rest.join 0 0 (by unfold pre_offset at hlen; split at hlen <;> omega)]
    rw [hoffeq, List.length_append]
    omega
  have hpre2 := receive_pre_eq (f ++ rest.join) hlen2
  have hext := pre_ctx_ext f rest.join hlen
  have hrun1 : run_sign_tx_chunks Hk (f :: rest) = session_loop Hk rest (pre_ctx f) := by
    show (match handle_sign_tx_receive_pre zero_ctx f with
          | .error sw => run_result.err sw
          | .ok c => session_loop Hk rest c) = _
    rw [hpre]
  have hrun2 : run_sign_tx_chunks Hk [f ++ rest.join] =
      session_loop Hk [] (receive_more (pre_ctx f) rest.join) := by
    show (match handle_sign_tx_receive_pre zero_ctx (f ++ rest.join) with
          | .error sw => run_result.err sw
          | .ok c => session_loop Hk [] c) = _
    rw [hpre2, hext]
  have hse := session_ext Hk rest (pre_ctx f) hgood
  refine ⟨by rw [hrun1, hrun2, hse], ?_⟩
  have hg0 : good_elems Hk (receive_more (pre_ctx f) rest.join) [] := by
    refine good_elems_shift Hk (pre_ctx f) rest.join [] ?_
    simpa using hgood
  have hfin := drain_finishes Hk (decode_measure (receive_more (pre_ctx f) rest.join))
    (receive_more (pre_ctx f) rest.join) le_rfl hg0
  have hfix := review_next_fixed Hk (decode_measure (receive_more (pre_ctx f) rest.join))
    (receive_more (pre_ctx f) rest.join) le_rfl
  rcases hr : review_next Hk (receive_more (pre_ctx f) rest.join) with ⟨cF, outs, s⟩
  rw [hr] at hfin hfix
  simp only [] at hfin
  subst hfin
  refine ⟨cF, outs, ?_, ?_⟩
  · rw [hrun1, hse, session_loop_eq Hk [] (receive_more (pre_ctx f) rest.join), hr]
  · have hsha : cF.sha256 = (receive_more (pre_ctx f) rest.join).sha256 :=
      congrArg (fun x => x.2.1) hfix
    rw [hsha]
    show f.drop (pre_offset f) ++ rest.join = (f ++ rest.join).drop (pre_offset f)
    rw [drop_append_le f rest.join (pre_offset f) (by omega)]

/-- C5 witness: a concrete split of `c5_stream` in the middle of the output
element gives the same run as the single-chunk feed. -/
theorem chunk_invariance_witness :
    pre_offset (c5_stream.take 10) + 5 ≤ (c5_stream.take 10).length ∧
    run_sign_tx_chunks (fun _ => []) (c5_stream.take 10 :: [c5_stream.drop 10]) =
      run_sign_tx_chunks (fun _ => [])
        [c5_stream.take 10 ++ List.join [c5_stream.drop 10]] := by
  refine ⟨by decide, (chunk_invariance (fun _ => []) (c5_stream.take 10) [c5_stream.drop 10]
    (by decide) ⟨by decide, by decide, fun o ho hch hidx => absurd hch (by decide)⟩).1⟩
